import Mathlib

/-!
Verification of the Quine-McCluskey reduction program (`qm.py`).

The program is embedded shallowly:
* a Python string is a `List Char` (`Term`);
* `combine_terms`, the grouping step, the merge loop of `quine_mccluskey`,
  and the PLA text reader/writer are translated function by function;
* the Python `dict {0..N: list}` of groups is a total function `Nat → List Term`
  (the separately proved key-safety results show all accesses stay in `0..N`);
* the Python `set`s (`used`, `prime_implicants`) are modelled by
  membership-insensitive structures: a list that is only queried through `∈`
  for `used`, and duplicate-free insertion (`add_prime`) for the accumulator;
* the unbounded `while True:` loop is run on explicit fuel `num_inputs + 1`;
  the termination theorems show this fuel is never exhausted;
* `sorted` on the accumulator is insertion sort by the code-point
  lexicographic order on strings, matching Python's `sorted` on a set of
  distinct strings.
-/

namespace QM

abbrev Term := List Char

/-- `count_ones`, from `qm.py`: `binary_string.count('1')`. -/
def count_ones (binary_string : Term) : Nat := binary_string.count '1'

/-- `combine_terms`, from `qm.py`: zip the two strings (Python `zip`
truncates to the shorter), count differing positions, build the combined
string with `'-'` at differing positions, and return it iff exactly one
position differs. -/
def combine_terms (term1 term2 : Term) : Option Term :=
  let pairs := term1.zip term2
  let diff_count := (pairs.filter (fun p => p.1 != p.2)).length
  let combined := pairs.map (fun p => if p.1 != p.2 then '-' else p.1)
  if diff_count = 1 then some combined else none

/-- Python truthiness of `combined` in `if combined:`: `None` and the empty
string are falsy, every other string is truthy. -/
def truthy : Option Term → Bool
  | none => false
  | some t => !t.isEmpty

/-- The well-formedness test from the grouping step of `quine_mccluskey`:
`len(term) == num_inputs and all(c in '01-' for c in term)` (the code skips
the term when this fails). -/
def valid_term (num_inputs : Nat) (t : Term) : Bool :=
  t.length == num_inputs && t.all (fun c => c == '0' || c == '1' || c == '-')

/-- The group dictionary, as a total function on population counts. -/
abbrev GroupMap := Nat → List Term

/-- Step 1 of `quine_mccluskey`: group the valid minterms by number of ones.
`init_groups N l i` is the list the Python dict holds at key `i`:
the valid terms of `l` with `count_ones = i`, in input order. -/
def init_groups (num_inputs : Nat) (minterms : List Term) : GroupMap :=
  fun i =>
    ((minterms.filter (valid_term num_inputs)).filter
      (fun t => count_ones t == i))

/-- All successful (truthy) merge results of one pass, in the iteration order
of the Python loops: `i` ascending over `range(num_inputs)`, `term1` over
`groups[i]`, `term2` over `groups[i+1]`. -/
def merged_list (num_inputs : Nat) (groups : GroupMap) : List Term :=
  (List.range num_inputs).flatMap (fun i =>
    (groups i).flatMap (fun term1 =>
      (groups (i+1)).filterMap (fun term2 =>
        let c := combine_terms term1 term2
        if truthy c then c else none)))

/-- The next-generation group dictionary: each successful merge result is
appended at key `count_ones(combined)`. -/
def next_groups_fn (num_inputs : Nat) (groups : GroupMap) : GroupMap :=
  fun j => (merged_list num_inputs groups).filter (fun c => count_ones c == j)

/-- The `used` set of a pass: both operands of every truthy merge.  Only
membership in this list is ever used, matching the Python `set`. -/
def used_list (num_inputs : Nat) (groups : GroupMap) : List Term :=
  (List.range num_inputs).flatMap (fun i =>
    (groups i).flatMap (fun term1 =>
      (groups (i+1)).flatMap (fun term2 =>
        if truthy (combine_terms term1 term2) then [term1, term2] else [])))

/-- `prime_implicants.add(term)`: set insertion, modelled as append-if-new on
a duplicate-free list. -/
def add_prime (pis : List Term) (t : Term) : List Term :=
  if t ∈ pis then pis else pis ++ [t]

/-- The terms a pass hands to the accumulator: every term of every current
group (keys `0..num_inputs`, in order) that is not in `used`. -/
def pass_primes (num_inputs : Nat) (groups : GroupMap) : List Term :=
  (List.range (num_inputs+1)).flatMap (fun i =>
    (groups i).filter (fun t => !(decide (t ∈ used_list num_inputs groups))))

/-- The `while True:` loop of `quine_mccluskey`, on explicit fuel.  Each
iteration computes the merges, extends the accumulator with the unabsorbed
terms, stops if every next-generation group is empty, and otherwise recurses
on the next generation. -/
def qm_loop (num_inputs : Nat) : Nat → GroupMap → List Term → Option (List Term)
  | 0, _, _ => none
  | fuel+1, groups, pis =>
    let pis2 := (pass_primes num_inputs groups).foldl add_prime pis
    if (List.range (num_inputs+1)).all
        (fun j => (next_groups_fn num_inputs groups j).isEmpty)
    then some pis2
    else qm_loop num_inputs fuel (next_groups_fn num_inputs groups) pis2

/-- Strict code-point lexicographic order on strings, as Python `<` compares
them (`'-' < '0' < '1'` since the code points are 45, 48, 49). -/
def str_lt : List Char → List Char → Bool
  | _, [] => false
  | [], _ :: _ => true
  | c :: cs, d :: ds => decide (c < d) || (c == d && str_lt cs ds)

/-- The corresponding non-strict order used for sorting. -/
def term_le (s t : Term) : Prop := str_lt t s = false

instance : DecidableRel term_le := fun s t => instDecidableEqBool (str_lt t s) false

/-- `quine_mccluskey`, from `qm.py`: group the valid minterms, run the merge
loop (fuel `num_inputs + 1`; the termination theorems show this suffices, so
`none` never actually occurs), and sort the accumulated prime implicants. -/
def quine_mccluskey (num_inputs : Nat) (minterms : List Term) : Option (List Term) :=
  (qm_loop num_inputs (num_inputs + 1) (init_groups num_inputs minterms) []).map
    (List.insertionSort term_le)

/-! ### Characterization of `combine_terms` -/

lemma zip_self_map_eq (a : Term) :
    ((a.zip a).map (fun p => if p.1 != p.2 then '-' else p.1)) = a := by
  induction a with
  | nil => rfl
  | cons c cs ih =>
    show (if (c != c) = true then '-' else c) ::
      ((cs.zip cs).map (fun p => if p.1 != p.2 then '-' else p.1)) = c :: cs
    rw [bne_self_eq_false, if_neg Bool.false_ne_true, ih]

lemma zip_self_filter_eq (a : Term) :
    ((a.zip a).filter (fun p => p.1 != p.2)) = [] := by
  induction a with
  | nil => rfl
  | cons c cs ih =>
    rw [show ((c :: cs).zip (c :: cs)) = (c, c) :: cs.zip cs from rfl, List.filter_cons]
    simp only [bne_self_eq_false]
    rw [if_neg Bool.false_ne_true]
    exact ih

lemma diff_zero_iff_eq : ∀ {a b : Term}, a.length = b.length →
    ((((a.zip b).filter (fun p => p.1 != p.2)).length = 0) ↔ a = b) := by
  intro a
  induction a with
  | nil =>
    intro b hb
    cases b with
    | nil => simp
    | cons q b' => simp at hb
  | cons p a' ih =>
    intro b hb
    cases b with
    | nil => simp at hb
    | cons q b' =>
      simp only [List.length_cons, Nat.succ_inj] at hb
      by_cases hpq : p = q
      · subst hpq
        simp [List.zip_cons_cons, List.filter_cons, ih hb]
      · have : (p != q) = true := by simpa using hpq
        simp [List.zip_cons_cons, List.filter_cons, this, hpq]

/-- Merging two strings with an equal head behaves as merging the tails and
re-attaching the head. -/
lemma combine_cons_eq_map (p : Char) (a' b' : Term) :
    combine_terms (p :: a') (p :: b') =
      (combine_terms a' b').map (fun c' => p :: c') := by
  have hbne : (p != p) = false := by simp
  simp only [combine_terms, List.zip_cons_cons, List.filter_cons, List.map_cons, hbne]
  by_cases hd : ((a'.zip b').filter (fun p => p.1 != p.2)).length = 1 <;> simp [hd]

/-- Merging two strings whose heads differ and whose tails agree. -/
lemma combine_cons_ne_eq (p q : Char) (hpq : p ≠ q) (a' : Term) :
    combine_terms (p :: a') (q :: a') = some ('-' :: a') := by
  have hbne : (p != q) = true := bne_iff_ne.mpr hpq
  simp only [combine_terms, List.zip_cons_cons, List.filter_cons, List.map_cons, hbne,
    eq_self_iff_true, if_true, zip_self_filter_eq, zip_self_map_eq, List.length_cons,
    List.length_nil]

/-- Merging fails when the heads differ and the (equal-length) tails also
differ somewhere. -/
lemma combine_cons_ne_of_tail_ne (p q : Char) (hpq : p ≠ q) {a' b' : Term}
    (hlen : a'.length = b'.length) (hne : a' ≠ b') :
    combine_terms (p :: a') (q :: b') = none := by
  have hbne : (p != q) = true := bne_iff_ne.mpr hpq
  simp only [combine_terms, List.zip_cons_cons, List.filter_cons, List.map_cons, hbne,
    eq_self_iff_true, if_true, List.length_cons]
  have h0 : ((a'.zip b').filter (fun p => p.1 != p.2)).length ≠ 0 := fun h =>
    hne ((diff_zero_iff_eq hlen).mp h)
  rw [if_neg (by omega)]

/-- The central characterization of the merge: for equal-length strings,
`combine_terms a b = some c` holds exactly when `a` and `b` agree except at
one position (common prefix `u`, common suffix `v`, differing symbols
`x ≠ y`), and then `c` carries `'-'` at that position and the common symbols
everywhere else. -/
lemma combine_eq_some_iff : ∀ {a b : Term}, a.length = b.length → ∀ {c : Term},
    (combine_terms a b = some c ↔
      ∃ u x y v, x ≠ y ∧ a = u ++ x :: v ∧ b = u ++ y :: v ∧ c = u ++ '-' :: v) := by
  intro a
  induction a with
  | nil =>
    intro b hb c
    cases b with
    | nil =>
      constructor
      · intro h; simp [combine_terms] at h
      · rintro ⟨u, x, y, v, hxy, ha, hbb, hc⟩
        exact absurd ha (by simp)
    | cons q b' => simp at hb
  | cons p a' ih =>
    intro b hb c
    cases b with
    | nil => simp at hb
    | cons q b' =>
      simp only [List.length_cons, Nat.succ_inj] at hb
      by_cases hpq : p = q
      · subst hpq
        rw [combine_cons_eq_map]
        constructor
        · intro h
          rcases Option.map_eq_some'.mp h with ⟨c', hc', rfl⟩
          rcases (ih hb).mp hc' with ⟨u, x, y, v, hxy, ha', hb', rfl⟩
          exact ⟨p :: u, x, y, v, hxy, by rw [ha']; rfl, by rw [hb']; rfl, rfl⟩
        · rintro ⟨u, x, y, v, hxy, ha, hbb, hc⟩
          cases u with
          | nil =>
            simp only [List.nil_append, List.cons.injEq] at ha hbb
            exact absurd (ha.1.symm.trans hbb.1) hxy
          | cons w u' =>
            simp only [List.cons_append, List.cons.injEq] at ha hbb
            obtain ⟨rfl, ha2⟩ := ha
            obtain ⟨-, hb2⟩ := hbb
            rw [(ih hb).mpr ⟨u', x, y, v, hxy, ha2, hb2, rfl⟩, hc]
            rfl
      · constructor
        · intro h
          by_cases he : a' = b'
          · subst he
            rw [combine_cons_ne_eq p q hpq] at h
            exact ⟨[], p, q, a', hpq, rfl, rfl, (Option.some.inj h).symm⟩
          · rw [combine_cons_ne_of_tail_ne p q hpq hb he] at h
            exact absurd h (by simp)
        · rintro ⟨u, x, y, v, hxy, ha, hbb, hc⟩
          cases u with
          | nil =>
            simp only [List.nil_append, List.cons.injEq] at ha hbb
            obtain ⟨rfl, rfl⟩ := ha
            obtain ⟨rfl, hbv⟩ := hbb
            rw [hbv, hc]
            exact combine_cons_ne_eq p q hpq a'
          | cons w u' =>
            simp only [List.cons_append, List.cons.injEq] at ha hbb
            exact absurd (ha.1.trans hbb.1.symm) hpq

lemma combine_of_one_diff {u v : Term} {x y : Char} (hxy : x ≠ y) :
    combine_terms (u ++ x :: v) (u ++ y :: v) = some (u ++ '-' :: v) :=
  (combine_eq_some_iff (by simp)).mpr ⟨u, x, y, v, hxy, rfl, rfl, rfl⟩

lemma combine_some_ne_nil {a b c : Term} (h : combine_terms a b = some c) : c ≠ [] := by
  simp only [combine_terms] at h
  split at h
  · rename_i hd
    cases hab : a.zip b with
    | nil => rw [hab] at hd; simp at hd
    | cons p rest =>
      rw [hab] at h
      intro hnil
      rw [hnil] at h
      simp at h
  · exact absurd h (by simp)

lemma combine_length {a b c : Term} (h : combine_terms a b = some c) :
    c.length = min a.length b.length := by
  simp only [combine_terms] at h
  split at h
  · simp only [Option.some.injEq] at h
    rw [← h]
    simp [List.length_zip]
  · exact absurd h (by simp)

lemma combine_mem_chars {a b c : Term} (h : combine_terms a b = some c) {x : Char}
    (hx : x ∈ c) : x = '-' ∨ x ∈ a := by
  simp only [combine_terms] at h
  split at h
  · simp only [Option.some.injEq] at h
    rw [← h] at hx
    rcases List.mem_map.mp hx with ⟨p, hp, hgx⟩
    by_cases hne : p.1 != p.2
    · left; rw [← hgx]; simp [hne]
    · right
      rw [← hgx]
      simp only [hne, if_false]
      exact (List.of_mem_zip hp).1
  · exact absurd h (by simp)

lemma count_ones_cons (c : Char) (t : Term) :
    count_ones (c :: t) = count_ones t + (if c = '1' then 1 else 0) := by
  show (c :: t).count '1' = t.count '1' + (if c = '1' then 1 else 0)
  rw [List.count_cons]
  by_cases h : c = '1'
  · rw [if_pos h, if_pos (beq_iff_eq.mpr h)]
  · rw [if_neg h, if_neg (by simp [h])]

lemma count_ones_zipmerge_le : ∀ (a b : Term),
    count_ones ((a.zip b).map (fun p => if p.1 != p.2 then '-' else p.1)) ≤
      count_ones a := by
  intro a
  induction a with
  | nil => intro b; simp [count_ones]
  | cons p a' ih =>
    intro b
    cases b with
    | nil => simp [count_ones]
    | cons q b' =>
      have hz : ((p :: a').zip (q :: b')).map (fun p => if p.1 != p.2 then '-' else p.1) =
          (if (p != q) = true then '-' else p) ::
            ((a'.zip b').map (fun p => if p.1 != p.2 then '-' else p.1)) := rfl
      rw [hz, count_ones_cons, count_ones_cons]
      have := ih b'
      by_cases hpq : (p != q) = true
      · rw [if_pos hpq, if_neg (show ¬('-' : Char) = '1' by decide)]
        omega
      · rw [if_neg hpq]
        omega

lemma count_ones_combine_le_left : ∀ (a b : Term) {c : Term},
    combine_terms a b = some c → count_ones c ≤ count_ones a := by
  intro a b c h
  simp only [combine_terms] at h
  split at h
  · simp only [Option.some.injEq] at h
    rw [← h]
    exact count_ones_zipmerge_le a b
  · exact absurd h (by simp)

/-- Well-formedness, Prop-level. -/
def validP (num_inputs : Nat) (t : Term) : Prop :=
  t.length = num_inputs ∧ ∀ x ∈ t, x = '0' ∨ x = '1' ∨ x = '-'

lemma valid_term_iff {num_inputs : Nat} {t : Term} :
    valid_term num_inputs t = true ↔ validP num_inputs t := by
  simp [valid_term, validP, List.all_eq_true, or_assoc]

lemma valid_combine {N : Nat} {a b c : Term} (ha : valid_term N a = true)
    (hb : valid_term N b = true) (h : combine_terms a b = some c) :
    valid_term N c = true := by
  rw [valid_term_iff] at *
  obtain ⟨hal, hac⟩ := ha
  obtain ⟨hbl, _⟩ := hb
  constructor
  · rw [combine_length h, hal, hbl, Nat.min_self]
  · intro x hx
    rcases combine_mem_chars h hx with rfl | hxa
    · right; right; rfl
    · exact hac x hxa

/-! ### The sort order -/

lemma str_lt_asymm : ∀ s t : List Char, str_lt s t = true → str_lt t s = false := by
  intro s
  induction s with
  | nil =>
    intro t _
    cases t with
    | nil => rfl
    | cons d ds => rfl
  | cons c cs ih =>
    intro t h
    cases t with
    | nil => simp [str_lt] at h
    | cons d ds =>
      simp only [str_lt, Bool.or_eq_true, decide_eq_true_eq, Bool.and_eq_true,
        beq_iff_eq] at h
      simp only [str_lt, Bool.or_eq_false_iff, decide_eq_false_iff_not,
        Bool.and_eq_false_iff, beq_eq_false_iff_ne, ne_eq]
      rcases h with hlt | ⟨rfl, hrec⟩
      · exact ⟨lt_asymm hlt, Or.inl (ne_of_gt hlt)⟩
      · exact ⟨lt_irrefl c, Or.inr (ih ds hrec)⟩

lemma str_lt_trans : ∀ s t u : List Char,
    str_lt s t = true → str_lt t u = true → str_lt s u = true := by
  intro s
  induction s with
  | nil =>
    intro t u h1 h2
    cases u with
    | nil =>
      cases t with
      | nil => exact h1
      | cons d ds => simp [str_lt] at h2
    | cons e es => rfl
  | cons c cs ih =>
    intro t u h1 h2
    cases t with
    | nil => simp [str_lt] at h1
    | cons d ds =>
      cases u with
      | nil => simp [str_lt] at h2
      | cons e es =>
        simp only [str_lt, Bool.or_eq_true, decide_eq_true_eq, Bool.and_eq_true,
          beq_iff_eq] at h1 h2 ⊢
        rcases h1 with hlt1 | ⟨rfl, hr1⟩
        · rcases h2 with hlt2 | ⟨rfl, _⟩
          · exact Or.inl (lt_trans hlt1 hlt2)
          · exact Or.inl hlt1
        · rcases h2 with hlt2 | ⟨rfl, hr2⟩
          · exact Or.inl hlt2
          · exact Or.inr ⟨rfl, ih ds es hr1 hr2⟩

lemma str_lt_conn : ∀ s t : List Char,
    str_lt s t = false → str_lt t s = false → s = t := by
  intro s
  induction s with
  | nil =>
    intro t h1 _
    cases t with
    | nil => rfl
    | cons d ds => simp [str_lt] at h1
  | cons c cs ih =>
    intro t h1 h2
    cases t with
    | nil => simp [str_lt] at h2
    | cons d ds =>
      simp only [str_lt, Bool.or_eq_false_iff, decide_eq_false_iff_not,
        Bool.and_eq_false_iff, beq_eq_false_iff_ne, ne_eq] at h1 h2
      have hcd : c = d := le_antisymm (le_of_not_lt h2.1) (le_of_not_lt h1.1)
      subst hcd
      rcases h1.2 with hne | hr1
      · exact absurd rfl hne
      · rcases h2.2 with hne | hr2
        · exact absurd rfl hne
        · rw [ih ds hr1 hr2]

instance : IsTrans Term term_le := by
  constructor
  intro s t u h1 h2
  simp only [term_le] at *
  by_cases hus : str_lt u s = true
  · by_cases htu : str_lt t u = true
    · exact absurd (str_lt_trans t u s htu hus) (by simp [h1])
    · have : t = u := str_lt_conn t u (by simpa using htu) h2
      subst this
      exact absurd hus (by simp [h1])
  · simpa using hus

instance : IsAntisymm Term term_le := by
  constructor
  intro s t h1 h2
  exact (str_lt_conn s t h2 h1)

instance : IsTotal Term term_le := by
  constructor
  intro s t
  simp only [term_le]
  by_cases h : str_lt t s = true
  · exact Or.inr (str_lt_asymm t s h)
  · exact Or.inl (by simpa using h)

/-! ### Membership in the pass structures -/

lemma truthy_ite_eq_some {o : Option Term} {c : Term} :
    (if truthy o then o else none) = some c ↔ o = some c ∧ c ≠ [] := by
  cases o with
  | none => simp [truthy]
  | some t =>
    cases t with
    | nil => simp [truthy]
    | cons x xs =>
      constructor
      · intro h
        rw [if_pos (show truthy (some (x :: xs)) = true from rfl)] at h
        exact ⟨h, fun hc => by rw [hc] at h; exact List.cons_ne_nil x xs (Option.some.inj h)⟩
      · rintro ⟨h, _⟩
        rw [if_pos (show truthy (some (x :: xs)) = true from rfl)]
        exact h

lemma mem_merged_list {N : Nat} {G : GroupMap} {c : Term} :
    c ∈ merged_list N G ↔
      ∃ i, i < N ∧ ∃ t1 ∈ G i, ∃ t2 ∈ G (i+1),
        combine_terms t1 t2 = some c ∧ c ≠ [] := by
  simp only [merged_list, List.mem_flatMap, List.mem_filterMap, List.mem_range]
  constructor
  · rintro ⟨i, hi, t1, h1, t2, h2, hc⟩
    rw [truthy_ite_eq_some] at hc
    exact ⟨i, hi, t1, h1, t2, h2, hc⟩
  · rintro ⟨i, hi, t1, h1, t2, h2, hc, hne⟩
    exact ⟨i, hi, t1, h1, t2, h2, truthy_ite_eq_some.mpr ⟨hc, hne⟩⟩

lemma mem_used_list {N : Nat} {G : GroupMap} {t : Term} :
    t ∈ used_list N G ↔
      ∃ i, i < N ∧ ∃ t1 ∈ G i, ∃ t2 ∈ G (i+1),
        truthy (combine_terms t1 t2) = true ∧ (t = t1 ∨ t = t2) := by
  simp only [used_list, List.mem_flatMap, List.mem_range]
  constructor
  · rintro ⟨i, hi, t1, h1, t2, h2, hmem⟩
    by_cases htr : truthy (combine_terms t1 t2) = true
    · rw [if_pos htr] at hmem
      simp only [List.mem_cons, List.mem_singleton, List.not_mem_nil, or_false] at hmem
      exact ⟨i, hi, t1, h1, t2, h2, htr, hmem⟩
    · rw [if_neg htr] at hmem
      exact absurd hmem (List.not_mem_nil t)
  · rintro ⟨i, hi, t1, h1, t2, h2, htr, hor⟩
    refine ⟨i, hi, t1, h1, t2, h2, ?_⟩
    rw [if_pos htr]
    rcases hor with rfl | rfl
    · exact List.mem_cons_self t [t2]
    · exact List.mem_cons_of_mem t1 (List.mem_cons_self t [])

lemma mem_add_prime {pis : List Term} {a t : Term} :
    t ∈ add_prime pis a ↔ t ∈ pis ∨ t = a := by
  unfold add_prime
  by_cases h : a ∈ pis
  · rw [if_pos h]
    constructor
    · exact Or.inl
    · rintro (ht | rfl)
      · exact ht
      · exact h
  · rw [if_neg h]
    simp

lemma nodup_add_prime {pis : List Term} {a : Term} (h : pis.Nodup) :
    (add_prime pis a).Nodup := by
  unfold add_prime
  by_cases ha : a ∈ pis
  · rwa [if_pos ha]
  · rw [if_neg ha]
    simp [List.nodup_append, h, ha]

lemma mem_foldl_add_prime : ∀ (L : List Term) (pis : List Term) (t : Term),
    t ∈ L.foldl add_prime pis ↔ t ∈ pis ∨ t ∈ L := by
  intro L
  induction L with
  | nil => intro pis t; simp
  | cons a L ih =>
    intro pis t
    rw [List.foldl_cons, ih, mem_add_prime, List.mem_cons]
    tauto

lemma nodup_foldl_add_prime : ∀ (L : List Term) {pis : List Term},
    pis.Nodup → (L.foldl add_prime pis).Nodup := by
  intro L
  induction L with
  | nil => intro pis h; exact h
  | cons a L ih => intro pis h; exact ih (nodup_add_prime h)

lemma mem_pass_primes {N : Nat} {G : GroupMap} {t : Term} :
    t ∈ pass_primes N G ↔ (∃ i, i ≤ N ∧ t ∈ G i) ∧ t ∉ used_list N G := by
  simp only [pass_primes, List.mem_flatMap, List.mem_range, List.mem_filter,
    Bool.not_eq_true', decide_eq_false_iff_not]
  constructor
  · rintro ⟨i, hi, hmem, hnu⟩
    exact ⟨⟨i, by omega, hmem⟩, hnu⟩
  · rintro ⟨⟨i, hi, hmem⟩, hnu⟩
    exact ⟨i, by omega, hmem, hnu⟩

/-! ### Group invariants: counts, bounds, well-formedness -/

/-- Every term in a group has the group's population count. -/
def GroupsCounted (G : GroupMap) : Prop := ∀ i t, t ∈ G i → count_ones t = i

/-- All groups above index `m` are empty. -/
def GroupsBounded (m : Nat) (G : GroupMap) : Prop := ∀ j, m < j → G j = []

/-- Every term stored in any group is well-formed for the declared width. -/
def GroupsWF (N : Nat) (G : GroupMap) : Prop :=
  ∀ i t, t ∈ G i → valid_term N t = true

lemma count_ones_le_length (t : Term) : count_ones t ≤ t.length :=
  List.count_le_length '1' t

lemma init_groups_counted (N : Nat) (l : List Term) :
    GroupsCounted (init_groups N l) := by
  intro i t ht
  simp only [init_groups, List.mem_filter, beq_iff_eq] at ht
  exact ht.2

lemma init_groups_wf (N : Nat) (l : List Term) : GroupsWF N (init_groups N l) := by
  intro i t ht
  simp only [init_groups, List.mem_filter] at ht
  exact ht.1.2

lemma init_groups_bounded (N : Nat) (l : List Term) :
    GroupsBounded N (init_groups N l) := by
  intro j hj
  rw [List.eq_nil_iff_forall_not_mem]
  intro t ht
  simp only [init_groups, List.mem_filter, beq_iff_eq] at ht
  have hv := (valid_term_iff.mp ht.1.2).1
  have := count_ones_le_length t
  omega

lemma next_groups_counted (N : Nat) (G : GroupMap) :
    GroupsCounted (next_groups_fn N G) := by
  intro i t ht
  simp only [next_groups_fn, List.mem_filter, beq_iff_eq] at ht
  exact ht.2

lemma merged_list_wf {N : Nat} {G : GroupMap} (hwf : GroupsWF N G) :
    ∀ c ∈ merged_list N G, valid_term N c = true := by
  intro c hc
  rcases mem_merged_list.mp hc with ⟨i, _, t1, h1, t2, h2, hcomb, _⟩
  exact valid_combine (hwf i t1 h1) (hwf (i+1) t2 h2) hcomb

lemma next_groups_wf {N : Nat} {G : GroupMap} (hwf : GroupsWF N G) :
    GroupsWF N (next_groups_fn N G) := by
  intro i t ht
  simp only [next_groups_fn, List.mem_filter] at ht
  exact merged_list_wf hwf t ht.1

lemma next_groups_bounded {N m : Nat} {G : GroupMap} (hcnt : GroupsCounted G)
    (hbd : GroupsBounded m G) : GroupsBounded (m - 1) (next_groups_fn N G) := by
  intro j hj
  rw [List.eq_nil_iff_forall_not_mem]
  intro c hc
  simp only [next_groups_fn, List.mem_filter, beq_iff_eq] at hc
  rcases mem_merged_list.mp hc.1 with ⟨i, _, t1, h1, t2, h2, hcomb, _⟩
  have hi1 : i + 1 ≤ m := by
    by_contra hgt
    rw [hbd (i+1) (by omega)] at h2
    exact List.not_mem_nil t2 h2
  have hcle : count_ones c ≤ count_ones t1 := count_ones_combine_le_left t1 t2 hcomb
  have := hcnt i t1 h1
  omega

lemma merged_nil_of_bounded_zero {N : Nat} {G : GroupMap}
    (hbd : GroupsBounded 0 G) : merged_list N G = [] := by
  rw [List.eq_nil_iff_forall_not_mem]
  intro c hc
  rcases mem_merged_list.mp hc with ⟨i, _, _, _, t2, h2, _, _⟩
  rw [hbd (i+1) (by omega)] at h2
  exact List.not_mem_nil t2 h2

/-! ### Termination of the merge loop -/

lemma qm_loop_isSome : ∀ (m : Nat) {N : Nat} {G : GroupMap} (pis : List Term),
    GroupsCounted G → GroupsBounded m G →
    (qm_loop N (m + 1) G pis).isSome = true := by
  intro m
  induction m with
  | zero =>
    intro N G pis _ hbd
    have hmerged : merged_list N G = [] := merged_nil_of_bounded_zero hbd
    simp only [qm_loop]
    rw [if_pos]
    · simp
    · simp only [List.all_eq_true, List.mem_range]
      intro j _
      simp [next_groups_fn, hmerged]
  | succ m ih =>
    intro N G pis hcnt hbd
    simp only [qm_loop]
    split
    · simp
    · exact ih _ (next_groups_counted N G)
        (by simpa using next_groups_bounded (m := m + 1) hcnt hbd)

lemma quine_mccluskey_isSome (N : Nat) (l : List Term) :
    (quine_mccluskey N l).isSome = true := by
  unfold quine_mccluskey
  have h := qm_loop_isSome N (N := N) (G := init_groups N l) []
    (init_groups_counted N l) (init_groups_bounded N l)
  cases hq : qm_loop N (N + 1) (init_groups N l) [] with
  | none => rw [hq] at h; simp at h
  | some res => rfl

/-! ### Validity through the loop -/

lemma qm_loop_valid : ∀ (fuel : Nat) {N : Nat} {G : GroupMap} {pis res : List Term},
    GroupsWF N G → (∀ t ∈ pis, valid_term N t = true) →
    qm_loop N fuel G pis = some res → ∀ t ∈ res, valid_term N t = true := by
  intro fuel
  induction fuel with
  | zero => intro N G pis res _ _ h; simp [qm_loop] at h
  | succ fuel ih =>
    intro N G pis res hwf hpis h
    simp only [qm_loop] at h
    have hpis2 : ∀ t ∈ (pass_primes N G).foldl add_prime pis, valid_term N t = true := by
      intro t ht
      rcases (mem_foldl_add_prime _ _ _).mp ht with h1 | h2
      · exact hpis t h1
      · rcases mem_pass_primes.mp h2 with ⟨⟨i, _, hmem⟩, _⟩
        exact hwf i t hmem
    split at h
    · have := Option.some.inj h
      subst this
      exact hpis2
    · exact ih (next_groups_wf hwf) hpis2 h

/-- Any result of a loop run contains everything the accumulator already
held when the run started. -/
lemma qm_loop_mono : ∀ (fuel : Nat) {N : Nat} {G : GroupMap} {pis res : List Term},
    qm_loop N fuel G pis = some res → ∀ t ∈ pis, t ∈ res := by
  intro fuel
  induction fuel with
  | zero => intro N G pis res h; simp [qm_loop] at h
  | succ fuel ih =>
    intro N G pis res h t ht
    have ht2 : t ∈ (pass_primes N G).foldl add_prime pis :=
      (mem_foldl_add_prime _ _ _).mpr (Or.inl ht)
    simp only [qm_loop] at h
    split at h
    · have := Option.some.inj h
      subst this
      exact ht2
    · exact ih h t ht2

lemma qm_loop_nodup : ∀ (fuel : Nat) {N : Nat} {G : GroupMap} {pis res : List Term},
    pis.Nodup → qm_loop N fuel G pis = some res → res.Nodup := by
  intro fuel
  induction fuel with
  | zero => intro N G pis res _ h; simp [qm_loop] at h
  | succ fuel ih =>
    intro N G pis res hnd h
    simp only [qm_loop] at h
    split at h
    · have := Option.some.inj h
      subst this
      exact nodup_foldl_add_prime _ hnd
    · exact ih (nodup_foldl_add_prime _ hnd) h

/-! ### Idempotence of the validity filter, empty input -/

lemma filter_valid_idem (N : Nat) (l : List Term) :
    (l.filter (valid_term N)).filter (valid_term N) = l.filter (valid_term N) := by
  induction l with
  | nil => rfl
  | cons a l ih =>
    by_cases h : valid_term N a = true
    · simp [List.filter_cons, h, ih]
    · simp [List.filter_cons, h, ih]

lemma init_groups_filter (N : Nat) (l : List Term) :
    init_groups N (l.filter (valid_term N)) = init_groups N l := by
  funext i
  show ((l.filter (valid_term N)).filter (valid_term N)).filter _ =
    (l.filter (valid_term N)).filter _
  rw [filter_valid_idem]

lemma merged_list_empty_groups (N : Nat) :
    merged_list N (fun _ => ([] : List Term)) = [] := by
  simp [merged_list]

lemma pass_primes_empty_groups (N : Nat) :
    pass_primes N (fun _ => ([] : List Term)) = [] := by
  simp [pass_primes]

lemma qm_loop_empty_groups (N fuel : Nat) :
    qm_loop N (fuel + 1) (fun _ => ([] : List Term)) [] = some [] := by
  simp only [qm_loop, pass_primes_empty_groups]
  rw [if_pos]
  · rfl
  · simp [List.all_eq_true, next_groups_fn, merged_list_empty_groups]

lemma init_groups_of_no_valid {N : Nat} {l : List Term}
    (h : l.filter (valid_term N) = []) :
    init_groups N l = fun _ => ([] : List Term) := by
  funext i
  show (l.filter (valid_term N)).filter _ = []
  rw [h]
  rfl

/-! ### Claim C1 -/

/-- C1 (counterexample): `combine_terms` can succeed on terms of different
lengths (Python `zip` truncates silently), so "non-none iff identical length
and exactly one differing position" is false as stated. -/
theorem c1_counterexample :
    (combine_terms ['0'] ['1', '1']).isSome = true ∧
      List.length ['0'] ≠ List.length ['1', '1'] := by decide

/-- C1 (amended): for terms of EQUAL length, `combine_terms a b` succeeds iff
`a` and `b` differ in exactly one position (common prefix `u`, common suffix
`v`, differing symbols `x ≠ y`); the merged term then has `'-'` exactly at
the differing position and the common symbol of the two inputs at every
other position. -/
theorem c1_merge_characterization (a b : Term) (h : a.length = b.length) :
    ((combine_terms a b).isSome = true ↔
      ∃ u x y v, x ≠ y ∧ a = u ++ x :: v ∧ b = u ++ y :: v) ∧
    (∀ c, combine_terms a b = some c →
      ∃ u x y v, x ≠ y ∧ a = u ++ x :: v ∧ b = u ++ y :: v ∧ c = u ++ '-' :: v) := by
  constructor
  · constructor
    · intro hs
      rcases Option.isSome_iff_exists.mp hs with ⟨c, hc⟩
      rcases (combine_eq_some_iff h).mp hc with ⟨u, x, y, v, hxy, ha, hb, _⟩
      exact ⟨u, x, y, v, hxy, ha, hb⟩
    · rintro ⟨u, x, y, v, hxy, rfl, rfl⟩
      rw [combine_of_one_diff hxy]
      rfl
  · intro c hc
    exact (combine_eq_some_iff h).mp hc

theorem c1_merge_characterization_witness :
    ∃ u x y v, x ≠ y ∧ (['0', '0'] : Term) = u ++ x :: v ∧
      (['0', '1'] : Term) = u ++ y :: v :=
  ((c1_merge_characterization ['0', '0'] ['0', '1'] (by decide)).1).mp (by decide)

/-! ### Claim C3 -/

/-- C3 (counterexample): with width 1 and minterms `0`, `1`, the merge loop
is not finished after only `num_inputs = 1` pass: running it on fuel 1 hits
the fuel bound (the first pass performs a merge, so a second pass is needed
to detect the fixed point). -/
theorem c3_counterexample :
    qm_loop 1 1 (init_groups 1 [['0'], ['1']]) [] = none := by decide

/-- C3 (amended): for every width and input list the merge loop terminates,
within `num_inputs + 1` passes: at most `num_inputs` passes can perform a
merge, and one final pass detects the fixed point.  Consequently
`quine_mccluskey` always returns a result. -/
theorem c3_termination (num_inputs : Nat) (minterms : List Term) :
    (qm_loop num_inputs (num_inputs + 1)
        (init_groups num_inputs minterms) []).isSome = true ∧
      (quine_mccluskey num_inputs minterms).isSome = true :=
  ⟨qm_loop_isSome num_inputs []
      (init_groups_counted num_inputs minterms)
      (init_groups_bounded num_inputs minterms),
    quine_mccluskey_isSome num_inputs minterms⟩

/-! ### Claim C4 -/

/-- C4: within a pass, if two terms sit in adjacent population-count groups
and neither is absorbed (in the `used` set) at the end of the pass, then
they are not merge-combinable: `combine_terms` returns `none` on them. -/
theorem c4_absorption_invariant (N : Nat) (G : GroupMap) (i : Nat) (t s : Term)
    (hi : i < N) (ht : t ∈ G i) (hs : s ∈ G (i + 1))
    (htu : t ∉ used_list N G) (hsu : s ∉ used_list N G) :
    combine_terms t s = none := by
  cases hc : combine_terms t s with
  | none => rfl
  | some c =>
    have hne : c ≠ [] := combine_some_ne_nil hc
    have htr : truthy (combine_terms t s) = true := by
      rw [hc]
      cases c with
      | nil => exact absurd rfl hne
      | cons x xs => rfl
    exact absurd (mem_used_list.mpr ⟨i, hi, t, ht, s, hs, htr, Or.inl rfl⟩) htu

theorem c4_absorption_invariant_witness :
    combine_terms ['1', '0', '0'] ['0', '1', '1'] = none :=
  c4_absorption_invariant 3 (init_groups 3 [['1', '0', '0'], ['0', '1', '1']]) 1
    ['1', '0', '0'] ['0', '1', '1'] (by decide) (by decide) (by decide)
    (by decide) (by decide)

/-! ### Claim C5 -/

/-- C5: on width 3 with minterms 000, 001, 010, 011, the first pass merges
000/001 into 00- and 010/011 into 01- (both merges appear in the first
pass's merge results), the second pass merges 00- with 01- into 0-- (which
appears in the second pass's merge results), and the overall result is
exactly the one-element list ["0--"]. -/
theorem c5_concrete_run :
    combine_terms ['0','0','0'] ['0','0','1'] = some ['0','0','-'] ∧
    combine_terms ['0','1','0'] ['0','1','1'] = some ['0','1','-'] ∧
    ['0','0','-'] ∈ merged_list 3
      (init_groups 3 [['0','0','0'],['0','0','1'],['0','1','0'],['0','1','1']]) ∧
    ['0','1','-'] ∈ merged_list 3
      (init_groups 3 [['0','0','0'],['0','0','1'],['0','1','0'],['0','1','1']]) ∧
    combine_terms ['0','0','-'] ['0','1','-'] = some ['0','-','-'] ∧
    ['0','-','-'] ∈ merged_list 3 (next_groups_fn 3
      (init_groups 3 [['0','0','0'],['0','0','1'],['0','1','0'],['0','1','1']])) ∧
    quine_mccluskey 3 [['0','0','0'],['0','0','1'],['0','1','0'],['0','1','1']] =
      some [['0','-','-']] := by decide

/-! ### Claim C7 -/

/-- C7: a term is excluded from grouping exactly when its length differs
from the declared width or it has a symbol outside 0, 1, -; the run's result
equals the result on the well-formed terms alone; an all-malformed or empty
minterm list yields the empty result. -/
theorem c7_malformed_terms (N : Nat) (l : List Term) :
    (∀ t, valid_term N t = true ↔
      (t.length = N ∧ ∀ x ∈ t, x = '0' ∨ x = '1' ∨ x = '-')) ∧
    quine_mccluskey N l = quine_mccluskey N (l.filter (valid_term N)) ∧
    ((∀ t ∈ l, valid_term N t = false) → quine_mccluskey N l = some []) ∧
    quine_mccluskey N [] = some [] := by
  refine ⟨fun t => valid_term_iff, ?_, ?_, ?_⟩
  · unfold quine_mccluskey
    rw [init_groups_filter]
  · intro hbad
    have hfil : l.filter (valid_term N) = [] := by
      rw [List.filter_eq_nil_iff]
      intro t ht
      rw [hbad t ht]
      simp
    unfold quine_mccluskey
    rw [init_groups_of_no_valid hfil, qm_loop_empty_groups]
    rfl
  · unfold quine_mccluskey
    rw [show init_groups N [] = fun _ => ([] : List Term) from funext fun i => rfl,
      qm_loop_empty_groups]
    rfl

theorem c7_malformed_terms_witness :
    quine_mccluskey 2 [['2', '2'], ['0']] = some [] :=
  (c7_malformed_terms 2 [['2', '2'], ['0']]).2.2.1 (by decide)

/-! ### Claim C10 -/

/-- C10: key safety of the group dictionaries.  Every valid minterm has
population count within 0..N (so initial grouping hits an existing key);
the initial groups hold only well-formed terms; a merge of well-formed
adjacent-group terms yields a well-formed term whose population count is
again within 0..N (so `next_groups[count_ones(combined)]` hits an existing
key and the next generation is well-formed); and every term of the final
result is well-formed (length N, symbols among 0, 1, -). -/
theorem c10_index_safety (N : Nat) (l : List Term) (G : GroupMap) :
    (∀ t ∈ l.filter (valid_term N), count_ones t ≤ N) ∧
    GroupsWF N (init_groups N l) ∧
    (GroupsWF N G →
      (∀ c ∈ merged_list N G, valid_term N c = true ∧ count_ones c ≤ N) ∧
      GroupsWF N (next_groups_fn N G)) ∧
    (∀ res, quine_mccluskey N l = some res → ∀ t ∈ res, valid_term N t = true) := by
  refine ⟨?_, init_groups_wf N l, ?_, ?_⟩
  · intro t ht
    have hv := (valid_term_iff.mp (List.mem_filter.mp ht).2).1
    have := count_ones_le_length t
    omega
  · intro hwf
    refine ⟨fun c hc => ⟨merged_list_wf hwf c hc, ?_⟩, next_groups_wf hwf⟩
    have hv := (valid_term_iff.mp (merged_list_wf hwf c hc)).1
    have := count_ones_le_length c
    omega
  · intro res hres t ht
    unfold quine_mccluskey at hres
    cases hq : qm_loop N (N + 1) (init_groups N l) [] with
    | none => rw [hq] at hres; simp at hres
    | some pis =>
      rw [hq] at hres
      simp only [Option.map_some'] at hres
      have hres' := Option.some.inj hres
      subst hres'
      have hvalid := qm_loop_valid (N + 1) (init_groups_wf N l)
        (by intro x hx; simp at hx) hq
      exact hvalid t ((List.perm_insertionSort term_le pis).mem_iff.mp ht)

theorem c10_index_safety_witness :
    ∀ t ∈ [['0', '-']], valid_term 2 t = true :=
  (c10_index_safety 2 [['0', '0'], ['0', '1']]
      (init_groups 2 [['0', '0'], ['0', '1']])).2.2.2
    [['0', '-']] (by decide)

/-! ### Order invariance (claim C2) -/

/-- Two lists with the same members (the only aspect of a Python `set`-like
or cross-product structure the algorithm observes). -/
def SetEq (l1 l2 : List Term) : Prop := ∀ t, t ∈ l1 ↔ t ∈ l2

def GroupsSetEq (G1 G2 : GroupMap) : Prop := ∀ i, SetEq (G1 i) (G2 i)

lemma isEmpty_eq_of_setEq {l1 l2 : List Term} (h : SetEq l1 l2) :
    l1.isEmpty = l2.isEmpty := by
  cases l1 with
  | nil =>
    cases l2 with
    | nil => rfl
    | cons a l => exact absurd ((h a).mpr (List.mem_cons_self a l)) (List.not_mem_nil a)
  | cons a l =>
    cases l2 with
    | nil => exact absurd ((h a).mp (List.mem_cons_self a l)) (List.not_mem_nil a)
    | cons b m => rfl

lemma merged_setEq {N : Nat} {G1 G2 : GroupMap} (h : GroupsSetEq G1 G2) :
    SetEq (merged_list N G1) (merged_list N G2) := by
  intro c
  rw [mem_merged_list, mem_merged_list]
  constructor
  · rintro ⟨i, hi, t1, h1, t2, h2, hc, hne⟩
    exact ⟨i, hi, t1, (h i t1).mp h1, t2, (h (i+1) t2).mp h2, hc, hne⟩
  · rintro ⟨i, hi, t1, h1, t2, h2, hc, hne⟩
    exact ⟨i, hi, t1, (h i t1).mpr h1, t2, (h (i+1) t2).mpr h2, hc, hne⟩

lemma next_groups_setEq {N : Nat} {G1 G2 : GroupMap} (h : GroupsSetEq G1 G2) :
    GroupsSetEq (next_groups_fn N G1) (next_groups_fn N G2) := by
  intro j c
  simp only [next_groups_fn, List.mem_filter]
  exact and_congr (merged_setEq h c) Iff.rfl

lemma used_setEq {N : Nat} {G1 G2 : GroupMap} (h : GroupsSetEq G1 G2) :
    SetEq (used_list N G1) (used_list N G2) := by
  intro t
  rw [mem_used_list, mem_used_list]
  constructor
  · rintro ⟨i, hi, t1, h1, t2, h2, htr, hor⟩
    exact ⟨i, hi, t1, (h i t1).mp h1, t2, (h (i+1) t2).mp h2, htr, hor⟩
  · rintro ⟨i, hi, t1, h1, t2, h2, htr, hor⟩
    exact ⟨i, hi, t1, (h i t1).mpr h1, t2, (h (i+1) t2).mpr h2, htr, hor⟩

lemma pass_primes_setEq {N : Nat} {G1 G2 : GroupMap} (h : GroupsSetEq G1 G2) :
    SetEq (pass_primes N G1) (pass_primes N G2) := by
  intro t
  rw [mem_pass_primes, mem_pass_primes]
  exact and_congr (exists_congr fun i => and_congr Iff.rfl (h i t))
    (not_congr (used_setEq h t))

lemma qm_loop_congr : ∀ (fuel : Nat) {N : Nat} {G1 G2 : GroupMap}
    {pis1 pis2 : List Term},
    GroupsSetEq G1 G2 → SetEq pis1 pis2 →
    (qm_loop N fuel G1 pis1 = none ∧ qm_loop N fuel G2 pis2 = none) ∨
    (∃ r1 r2, qm_loop N fuel G1 pis1 = some r1 ∧ qm_loop N fuel G2 pis2 = some r2 ∧
      SetEq r1 r2) := by
  intro fuel
  induction fuel with
  | zero => intro N G1 G2 pis1 pis2 _ _; left; exact ⟨rfl, rfl⟩
  | succ fuel ih =>
    intro N G1 G2 pis1 pis2 hG hp
    have hp2 : SetEq ((pass_primes N G1).foldl add_prime pis1)
        ((pass_primes N G2).foldl add_prime pis2) := by
      intro t
      rw [mem_foldl_add_prime, mem_foldl_add_prime]
      exact or_congr (hp t) (pass_primes_setEq hG t)
    have hchk : ((List.range (N+1)).all (fun j => (next_groups_fn N G1 j).isEmpty)) =
        ((List.range (N+1)).all (fun j => (next_groups_fn N G2 j).isEmpty)) := by
      have hfn : (fun j => (next_groups_fn N G1 j).isEmpty) =
          (fun j => (next_groups_fn N G2 j).isEmpty) :=
        funext fun j => isEmpty_eq_of_setEq (next_groups_setEq hG j)
      rw [hfn]
    simp only [qm_loop]
    by_cases hb : (List.range (N+1)).all (fun j => (next_groups_fn N G1 j).isEmpty) = true
    · rw [if_pos hb, if_pos (by rw [← hchk]; exact hb)]
      right
      exact ⟨_, _, rfl, rfl, hp2⟩
    · rw [if_neg hb, if_neg (fun hc => hb (by rw [hchk]; exact hc))]
      exact ih (next_groups_setEq hG) hp2

/-- C2: the result of `quine_mccluskey` depends only on the multiset of
minterms, not on their order: permuting the input list yields the identical
sorted output. -/
theorem c2_order_invariance (N : Nat) (l1 l2 : List Term) (h : l1.Perm l2) :
    quine_mccluskey N l1 = quine_mccluskey N l2 := by
  have hinit : GroupsSetEq (init_groups N l1) (init_groups N l2) := by
    intro i t
    simp only [init_groups, List.mem_filter]
    exact and_congr (and_congr h.mem_iff Iff.rfl) Iff.rfl
  unfold quine_mccluskey
  rcases qm_loop_congr (N+1) hinit (fun t => Iff.rfl) with ⟨h1, h2⟩ | ⟨r1, r2, h1, h2, hset⟩
  · rw [h1, h2]
  · rw [h1, h2]
    simp only [Option.map_some']
    congr 1
    have hn1 : r1.Nodup := qm_loop_nodup (N+1) List.nodup_nil h1
    have hn2 : r2.Nodup := qm_loop_nodup (N+1) List.nodup_nil h2
    have p12 : r1.Perm r2 := (List.perm_ext_iff_of_nodup hn1 hn2).mpr hset
    exact List.eq_of_perm_of_sorted
      ((List.perm_insertionSort term_le r1).trans
        (p12.trans (List.perm_insertionSort term_le r2).symm))
      (List.sorted_insertionSort term_le r1)
      (List.sorted_insertionSort term_le r2)

theorem c2_order_invariance_witness :
    quine_mccluskey 2 [['0', '0'], ['0', '1']] =
      quine_mccluskey 2 [['0', '1'], ['0', '0']] :=
  c2_order_invariance 2 [['0', '0'], ['0', '1']] [['0', '1'], ['0', '0']]
    (List.Perm.swap ['0', '1'] ['0', '0'] [])

/-! ### Coverage (claim C9) -/

/-- `covers t m`: at every position, `t` has either the don't-care symbol or
the same symbol as `m` (this forces equal lengths). -/
def covers (t m : Term) : Prop :=
  List.Forall₂ (fun a b => a = '-' ∨ a = b) t m

lemma covers_refl (t : Term) : covers t t :=
  List.forall₂_same.mpr fun _ _ => Or.inr rfl

lemma covers_trans : ∀ {u c t : Term}, covers u c → covers c t → covers u t := by
  intro u c t h1 h2
  induction h1 generalizing t with
  | nil => cases h2; exact List.Forall₂.nil
  | cons hr _ ih =>
    cases h2 with
    | cons hr2 hrest2 =>
      refine List.Forall₂.cons ?_ (ih hrest2)
      rcases hr with rfl | rfl
      · exact Or.inl rfl
      · exact hr2

lemma covers_self_forall (u : Term) :
    List.Forall₂ (fun a b : Char => a = '-' ∨ a = b) u u := by
  rw [List.forall₂_same]
  intro x _
  exact Or.inr rfl

lemma covers_one_diff {u v : Term} {x : Char} :
    covers (u ++ '-' :: v) (u ++ x :: v) := by
  unfold covers
  exact List.rel_append (covers_self_forall u)
    (List.Forall₂.cons (Or.inl rfl) (covers_self_forall v))

/-- The merge result covers both of its operands (for equal-length inputs). -/
lemma combine_covers {a b c : Term} (hlen : a.length = b.length)
    (h : combine_terms a b = some c) : covers c a ∧ covers c b := by
  rcases (combine_eq_some_iff hlen).mp h with ⟨u, x, y, v, _, rfl, rfl, rfl⟩
  exact ⟨covers_one_diff, covers_one_diff⟩

lemma eq_nil_of_isEmpty {l : List Term} (h : l.isEmpty = true) : l = [] := by
  cases l with
  | nil => rfl
  | cons a l => simp at h

/-- Every term present in any group when the loop runs to completion is
covered by some term of the final accumulator. -/
lemma qm_loop_covers : ∀ (fuel : Nat) {N : Nat} {G : GroupMap} {pis res : List Term},
    GroupsWF N G → qm_loop N fuel G pis = some res →
    ∀ j t, j ≤ N → t ∈ G j → ∃ u ∈ res, covers u t := by
  intro fuel
  induction fuel with
  | zero => intro N G pis res _ h; simp [qm_loop] at h
  | succ fuel ih =>
    intro N G pis res hwf h j t hj ht
    simp only [qm_loop] at h
    by_cases hused : t ∈ used_list N G
    · rcases mem_used_list.mp hused with ⟨i, hi, t1, h1, t2, h2, htr, hor⟩
      cases hcomb : combine_terms t1 t2 with
      | none => rw [hcomb] at htr; simp [truthy] at htr
      | some c =>
        have hcne : c ≠ [] := combine_some_ne_nil hcomb
        have hcmem : c ∈ merged_list N G :=
          mem_merged_list.mpr ⟨i, hi, t1, h1, t2, h2, hcomb, hcne⟩
        have hlen1 := (valid_term_iff.mp (hwf i t1 h1)).1
        have hlen2 := (valid_term_iff.mp (hwf (i+1) t2 h2)).1
        have hcov : covers c t := by
          have hcc := combine_covers (by rw [hlen1, hlen2]) hcomb
          rcases hor with rfl | rfl
          · exact hcc.1
          · exact hcc.2
        have hcle : count_ones c ≤ N := by
          have := (valid_term_iff.mp (merged_list_wf hwf c hcmem)).1
          have := count_ones_le_length c
          omega
        have hcnext : c ∈ next_groups_fn N G (count_ones c) := by
          simp only [next_groups_fn, List.mem_filter, beq_iff_eq]
          exact ⟨hcmem, trivial⟩
        split at h
        · rename_i hchk
          rw [List.all_eq_true] at hchk
          have hemp := eq_nil_of_isEmpty
            (hchk (count_ones c) (List.mem_range.mpr (by omega)))
          rw [hemp] at hcnext
          exact absurd hcnext (List.not_mem_nil c)
        · rcases ih (next_groups_wf hwf) h (count_ones c) c hcle hcnext with
            ⟨w, hw, hcovw⟩
          exact ⟨w, hw, covers_trans hcovw hcov⟩
    · have hpp : t ∈ pass_primes N G := mem_pass_primes.mpr ⟨⟨j, hj, ht⟩, hused⟩
      have hpis2 : t ∈ (pass_primes N G).foldl add_prime pis :=
        (mem_foldl_add_prime _ _ _).mpr (Or.inr hpp)
      split at h
      · have := Option.some.inj h
        subst this
        exact ⟨t, hpis2, covers_refl t⟩
      · exact ⟨t, qm_loop_mono fuel h t hpis2, covers_refl t⟩

/-- C9: coverage soundness.  Every well-formed pure minterm of the input is
covered by some term of the output. -/
theorem c9_coverage (N : Nat) (l : List Term) (m : Term)
    (hm : m ∈ l) (hlen : m.length = N) (hpure : ∀ x ∈ m, x = '0' ∨ x = '1') :
    ∃ out, quine_mccluskey N l = some out ∧ ∃ u ∈ out, covers u m := by
  have hvalid : valid_term N m = true := valid_term_iff.mpr
    ⟨hlen, fun x hx => by
      rcases hpure x hx with h | h
      · exact Or.inl h
      · exact Or.inr (Or.inl h)⟩
  have hminit : m ∈ init_groups N l (count_ones m) := by
    simp only [init_groups, List.mem_filter, beq_iff_eq]
    exact ⟨⟨hm, hvalid⟩, trivial⟩
  have hcle : count_ones m ≤ N := by
    have := count_ones_le_length m
    omega
  cases hq : qm_loop N (N + 1) (init_groups N l) [] with
  | none =>
    have hs := quine_mccluskey_isSome N l
    unfold quine_mccluskey at hs
    rw [hq] at hs
    simp at hs
  | some res =>
    rcases qm_loop_covers (N + 1) (init_groups_wf N l) hq (count_ones m) m hcle
        hminit with ⟨u, hu, hcov⟩
    refine ⟨List.insertionSort term_le res, ?_, u, ?_, hcov⟩
    · unfold quine_mccluskey
      rw [hq]
      rfl
    · exact (List.perm_insertionSort term_le res).mem_iff.mpr hu

theorem c9_coverage_witness :
    ∃ out, quine_mccluskey 2 [['0', '0'], ['0', '1']] = some out ∧
      ∃ u ∈ out, covers u ['0', '0'] :=
  c9_coverage 2 [['0', '0'], ['0', '1']] ['0', '0'] (by decide) (by decide)
    (by decide)

/-! ### Idempotence on pure inputs (claim C6): generation structure -/

/-- A term with no don't-care symbol. -/
def pure_term (t : Term) : Prop := ∀ x ∈ t, x = '0' ∨ x = '1'

instance : DecidablePred pure_term := fun t =>
  List.decidableBAll (fun x => x = '0' ∨ x = '1') t

/-- Number of don't-care symbols in a term. -/
def dashes (t : Term) : Nat := t.count '-'

/-- Every pure string covered by `t` (i.e. every expansion of `t`) satisfies
`M`. -/
def AllPresent (M : Term → Prop) (t : Term) : Prop :=
  ∀ m, pure_term m → covers t m → M m

/-- Characterization of the terms of merge generation `k` over a pure input
set `M`: width-`N` well-formed symbols, exactly `k` don't-cares, and all
expansions present in `M`. -/
def GenChar (M : Term → Prop) (N k : Nat) (t : Term) : Prop :=
  t.length = N ∧ (∀ x ∈ t, x = '0' ∨ x = '1' ∨ x = '-') ∧ dashes t = k ∧
    AllPresent M t

/-- The groups of iteration `k` hold exactly the generation-`k` terms,
bucketed by population count. -/
def GensInv (M : Term → Prop) (N k : Nat) (G : GroupMap) : Prop :=
  GroupsCounted G ∧ ∀ t, (∃ i, t ∈ G i) ↔ GenChar M N k t

lemma dashes_cons (c : Char) (t : Term) :
    dashes (c :: t) = dashes t + (if c = '-' then 1 else 0) := by
  show (c :: t).count '-' = t.count '-' + (if c = '-' then 1 else 0)
  rw [List.count_cons]
  by_cases h : c = '-'
  · rw [if_pos h, if_pos (beq_iff_eq.mpr h)]
  · rw [if_neg h, if_neg (by simp [h])]

lemma count_ones_append_cons (u v : Term) (x : Char) :
    count_ones (u ++ x :: v) =
      count_ones u + count_ones v + (if x = '1' then 1 else 0) := by
  unfold count_ones
  rw [List.count_append, List.count_cons]
  by_cases h : x = '1'
  · rw [if_pos h, if_pos (beq_iff_eq.mpr h)]
    omega
  · rw [if_neg h, if_neg (by simp [h])]
    omega

lemma dashes_append_cons (u v : Term) (x : Char) :
    dashes (u ++ x :: v) = dashes u + dashes v + (if x = '-' then 1 else 0) := by
  unfold dashes
  rw [List.count_append, List.count_cons]
  by_cases h : x = '-'
  · rw [if_pos h, if_pos (beq_iff_eq.mpr h)]
    omega
  · rw [if_neg h, if_neg (by simp [h])]
    omega

lemma count_ones_add_dashes_le (t : Term) :
    count_ones t + dashes t ≤ t.length := by
  induction t with
  | nil => simp [count_ones, dashes]
  | cons c t ih =>
    rw [count_ones_cons, dashes_cons, List.length_cons]
    by_cases h1 : c = '1'
    · rw [if_pos h1, if_neg (by rw [h1]; decide)]
      omega
    · rw [if_neg h1]
      by_cases h2 : c = '-'
      · rw [if_pos h2]
        omega
      · rw [if_neg h2]
        omega

lemma pure_of_dashes_zero {t : Term}
    (hsym : ∀ x ∈ t, x = '0' ∨ x = '1' ∨ x = '-') (hd : dashes t = 0) :
    pure_term t := by
  intro x hx
  rcases hsym x hx with h | h | h
  · exact Or.inl h
  · exact Or.inr h
  · subst h
    rw [dashes, List.count_eq_zero] at hd
    exact absurd hx hd

lemma dashes_zero_of_pure {t : Term} (h : pure_term t) : dashes t = 0 := by
  rw [dashes, List.count_eq_zero]
  intro hd
  rcases h '-' hd with h1 | h1 <;> exact absurd h1 (by decide)

lemma covers_pure_eq : ∀ {t m : Term}, pure_term t → covers t m → t = m := by
  intro t m hpure hcov
  induction hcov with
  | nil => rfl
  | cons hr hrest ih =>
    rename_i a b t' m'
    have ha := hpure a (List.mem_cons_self a t')
    have htail : pure_term t' := fun x hx => hpure x (List.mem_cons_of_mem a hx)
    rcases hr with rfl | rfl
    · rcases ha with h | h <;> exact absurd h (by decide)
    · rw [ih htail]

/-- Splitting a covering along a decomposition of the covering term. -/
lemma covers_append_cons_split : ∀ {u v : Term} {x : Char} {m : Term},
    covers (u ++ x :: v) m → ∃ mu z mv, m = mu ++ z :: mv ∧ covers u mu ∧
      (x = '-' ∨ x = z) ∧ covers v mv := by
  intro u
  induction u with
  | nil =>
    intro v x m h
    cases h with
    | cons hr hrest => exact ⟨[], _, _, rfl, List.Forall₂.nil, hr, hrest⟩
  | cons a u ih =>
    intro v x m h
    cases h with
    | cons hr hrest =>
      rcases ih hrest with ⟨mu, z, mv, rfl, hu, hxz, hv⟩
      exact ⟨_ :: mu, z, mv, rfl, List.Forall₂.cons hr hu, hxz, hv⟩

lemma covers_build {u v mu mv : Term} {x z : Char} (hu : covers u mu)
    (hv : covers v mv) (hxz : x = '-' ∨ x = z) :
    covers (u ++ x :: v) (mu ++ z :: mv) :=
  List.rel_append hu (List.Forall₂.cons hxz hv)

lemma pure_append_cons_parts {mu mv : Term} {z : Char}
    (h : pure_term (mu ++ z :: mv)) :
    pure_term mu ∧ (z = '0' ∨ z = '1') ∧ pure_term mv := by
  refine ⟨fun x hx => h x (List.mem_append.mpr (Or.inl hx)), ?_, ?_⟩
  · exact h z (List.mem_append.mpr (Or.inr (List.mem_cons_self z mv)))
  · exact fun x hx =>
      h x (List.mem_append.mpr (Or.inr (List.mem_cons_of_mem z hx)))

/-- The expansions of a merged term are exactly the union of the expansions
of its two parents. -/
lemma allPresent_merge {M : Term → Prop} {u v : Term}
    (h0 : AllPresent M (u ++ '0' :: v)) (h1 : AllPresent M (u ++ '1' :: v)) :
    AllPresent M (u ++ '-' :: v) := by
  intro m hm hcov
  rcases covers_append_cons_split hcov with ⟨mu, z, mv, rfl, hu, _, hv⟩
  rcases pure_append_cons_parts hm with ⟨-, hz, -⟩
  rcases hz with rfl | rfl
  · exact h0 _ hm (covers_build hu hv (Or.inr rfl))
  · exact h1 _ hm (covers_build hu hv (Or.inr rfl))

lemma allPresent_restrict {M : Term → Prop} {u v : Term} {x : Char}
    (h : AllPresent M (u ++ '-' :: v)) : AllPresent M (u ++ x :: v) :=
  fun m hm hcov => h m hm (covers_trans covers_one_diff hcov)

lemma symbols_replace {u v : Term} {x : Char} (y : Char)
    (hsym : ∀ s ∈ u ++ x :: v, s = '0' ∨ s = '1' ∨ s = '-')
    (hy : y = '0' ∨ y = '1' ∨ y = '-') :
    ∀ s ∈ u ++ y :: v, s = '0' ∨ s = '1' ∨ s = '-' := by
  intro s hs
  rcases List.mem_append.mp hs with h | h
  · exact hsym s (List.mem_append.mpr (Or.inl h))
  · rcases List.mem_cons.mp h with rfl | h
    · exact hy
    · exact hsym s (List.mem_append.mpr (Or.inr (List.mem_cons_of_mem x h)))

lemma length_replace {u v : Term} (x y : Char) :
    (u ++ y :: v).length = (u ++ x :: v).length := by
  simp [List.length_append]

/-- Among two ite-terms counting a `'1'`, a difference of one forces the
symbols. -/
lemma ite_one_succ {x y : Char} {a i : Nat}
    (h1 : a + (if x = '1' then 1 else 0) = i)
    (h2 : a + (if y = '1' then 1 else 0) = i + 1) : y = '1' ∧ x ≠ '1' := by
  by_cases hx : x = '1' <;> by_cases hy : y = '1'
  · rw [if_pos hx] at h1
    rw [if_pos hy] at h2
    exfalso
    omega
  · rw [if_pos hx] at h1
    rw [if_neg hy] at h2
    exfalso
    omega
  · exact ⟨hy, hx⟩
  · rw [if_neg hx] at h1
    rw [if_neg hy] at h2
    exfalso
    omega

/-- Under the generation invariant, every merge between adjacent groups
replaces a `'0'` of the lower-count operand, matched against a `'1'` of the
higher-count operand, by a don't-care. -/
lemma merge_shape {M : Term → Prop} {N k : Nat} {G : GroupMap}
    (hcnt : GroupsCounted G)
    (hchar : ∀ t, (∃ i, t ∈ G i) ↔ GenChar M N k t)
    {i : Nat} {t1 t2 c : Term} (h1 : t1 ∈ G i) (h2 : t2 ∈ G (i+1))
    (hcomb : combine_terms t1 t2 = some c) :
    ∃ u v, t1 = u ++ '0' :: v ∧ t2 = u ++ '1' :: v ∧ c = u ++ '-' :: v := by
  obtain ⟨hl1, hs1, hd1, hap1⟩ := (hchar t1).mp ⟨i, h1⟩
  obtain ⟨hl2, hs2, hd2, hap2⟩ := (hchar t2).mp ⟨i + 1, h2⟩
  have hc1 : count_ones t1 = i := hcnt i t1 h1
  have hc2 : count_ones t2 = i + 1 := hcnt (i+1) t2 h2
  rcases (combine_eq_some_iff (hl1.trans hl2.symm)).mp hcomb with
    ⟨u, x, y, v, hxy, rfl, rfl, rfl⟩
  rw [count_ones_append_cons] at hc1 hc2
  obtain ⟨hy1, hx1⟩ := ite_one_succ hc1 hc2
  subst hy1
  have hxd : x ≠ '-' := by
    intro hx
    rw [dashes_append_cons, if_pos hx] at hd1
    rw [dashes_append_cons, if_neg (by decide)] at hd2
    omega
  have hx0 : x = '0' := by
    rcases hs1 x (List.mem_append.mpr (Or.inr (List.mem_cons_self x v))) with
      h | h | h
    · exact h
    · exact absurd h hx1
    · exact absurd h hxd
  subst hx0
  exact ⟨u, v, rfl, rfl, rfl⟩

/-- The initial groups of a pure-minterm run satisfy the generation-0
characterization, with `M` the set of valid input minterms. -/
lemma gensInv_init {N : Nat} {l : List Term} (hl : ∀ t ∈ l, pure_term t) :
    GensInv (fun m => m ∈ l ∧ valid_term N m = true) N 0 (init_groups N l) := by
  refine ⟨init_groups_counted N l, fun t => ⟨?_, ?_⟩⟩
  · rintro ⟨i, ht⟩
    simp only [init_groups, List.mem_filter, beq_iff_eq] at ht
    obtain ⟨⟨htl, htv⟩, -⟩ := ht
    have hpure : pure_term t := hl t htl
    obtain ⟨hlen, hsym⟩ := valid_term_iff.mp htv
    refine ⟨hlen, hsym, dashes_zero_of_pure hpure, ?_⟩
    intro m hm hcov
    rw [← covers_pure_eq hpure hcov]
    exact ⟨htl, htv⟩
  · rintro ⟨hlen, hsym, hdash, hap⟩
    have hpure : pure_term t := pure_of_dashes_zero hsym hdash
    have htM := hap t hpure (covers_refl t)
    refine ⟨count_ones t, ?_⟩
    exact List.mem_filter.mpr ⟨List.mem_filter.mpr ⟨htM.1, htM.2⟩, by simp⟩

/-- One pass advances the generation characterization from `k` to `k+1`. -/
lemma gensInv_step {M : Term → Prop} {N k : Nat} {G : GroupMap}
    (hinv : GensInv M N k G) : GensInv M N (k+1) (next_groups_fn N G) := by
  obtain ⟨hcnt, hchar⟩ := hinv
  refine ⟨next_groups_counted N G, fun t => ⟨?_, ?_⟩⟩
  · rintro ⟨j, ht⟩
    simp only [next_groups_fn, List.mem_filter, beq_iff_eq] at ht
    rcases mem_merged_list.mp ht.1 with ⟨i, hi, t1, h1, t2, h2, hcomb, hne⟩
    rcases merge_shape hcnt hchar h1 h2 hcomb with ⟨u, v, ha, hb, rfl⟩
    obtain ⟨hl1, hs1, hd1, hap1⟩ := (hchar t1).mp ⟨i, h1⟩
    obtain ⟨hl2, hs2, hd2, hap2⟩ := (hchar t2).mp ⟨i+1, h2⟩
    subst ha
    subst hb
    refine ⟨by rw [length_replace '0' '-']; exact hl1,
      symbols_replace '-' hs1 (Or.inr (Or.inr rfl)), ?_,
      allPresent_merge hap1 hap2⟩
    rw [dashes_append_cons, if_pos rfl]
    rw [dashes_append_cons, if_neg (by decide)] at hd1
    omega
  · rintro ⟨hlen, hsym, hdash, hap⟩
    have hdm : '-' ∈ t := by
      have hne : t.count '-' ≠ 0 := by
        unfold dashes at hdash
        omega
      by_contra hnm
      exact hne (List.count_eq_zero.mpr hnm)
    rcases List.append_of_mem hdm with ⟨u, v, rfl⟩
    have hap0 : AllPresent M (u ++ '0' :: v) := allPresent_restrict hap
    have hap1 : AllPresent M (u ++ '1' :: v) := allPresent_restrict hap
    have hd_uv : dashes u + dashes v = k := by
      rw [dashes_append_cons, if_pos rfl] at hdash
      omega
    have hchar0 : GenChar M N k (u ++ '0' :: v) := by
      refine ⟨by rw [length_replace '-' '0']; exact hlen,
        symbols_replace '0' hsym (Or.inl rfl), ?_, hap0⟩
      rw [dashes_append_cons, if_neg (by decide)]
      omega
    have hchar1 : GenChar M N k (u ++ '1' :: v) := by
      refine ⟨by rw [length_replace '-' '1']; exact hlen,
        symbols_replace '1' hsym (Or.inr (Or.inl rfl)), ?_, hap1⟩
      rw [dashes_append_cons, if_neg (by decide)]
      omega
    rcases (hchar _).mpr hchar0 with ⟨i0, hmem0⟩
    rcases (hchar _).mpr hchar1 with ⟨i1, hmem1⟩
    have hi0 : count_ones (u ++ '0' :: v) = i0 := hcnt i0 _ hmem0
    have hi1 : count_ones (u ++ '1' :: v) = i1 := hcnt i1 _ hmem1
    have hc0 : count_ones (u ++ '0' :: v) = count_ones u + count_ones v := by
      rw [count_ones_append_cons, if_neg (by decide)]
      omega
    have hc1 : count_ones (u ++ '1' :: v) = count_ones u + count_ones v + 1 := by
      rw [count_ones_append_cons, if_pos rfl]
    have hi1le : i1 ≤ N := by
      have hle := count_ones_add_dashes_le (u ++ '1' :: v)
      have hlb : (u ++ '1' :: v).length = N := by
        rw [length_replace '-' '1']
        exact hlen
      omega
    have hmem1' : (u ++ '1' :: v) ∈ G (i0 + 1) := by
      have hi01 : i1 = i0 + 1 := by omega
      rw [← hi01]
      exact hmem1
    have htm : (u ++ '-' :: v) ∈ merged_list N G :=
      mem_merged_list.mpr ⟨i0, by omega, _, hmem0, _, hmem1',
        combine_of_one_diff (by decide), by simp⟩
    refine ⟨count_ones (u ++ '-' :: v), ?_⟩
    simp only [next_groups_fn, List.mem_filter]
    exact ⟨htm, by simp⟩

/-- No single defined position of `t` can be widened to a don't-care while
keeping all expansions present. -/
def NoExt (M : Term → Prop) (t : Term) : Prop :=
  ∀ u x v, t = u ++ x :: v → (x = '0' ∨ x = '1') →
    ¬ AllPresent M (u ++ '-' :: v)

/-- The facts held by every output term of a pure-input run. -/
def SoundOut (M : Term → Prop) (N : Nat) (t : Term) : Prop :=
  validP N t ∧ AllPresent M t ∧ NoExt M t

/-- Under the generation invariant, a group term is absorbed (is in `used`)
iff some defined position of it can be widened to a don't-care with all
expansions still present. -/
lemma used_iff_extension {M : Term → Prop} {N k : Nat} {G : GroupMap}
    (hcnt : GroupsCounted G)
    (hchar : ∀ t, (∃ i, t ∈ G i) ↔ GenChar M N k t)
    {t : Term} (htg : ∃ i, t ∈ G i) :
    (t ∈ used_list N G ↔
      ∃ u x v, t = u ++ x :: v ∧ (x = '0' ∨ x = '1') ∧
        AllPresent M (u ++ '-' :: v)) := by
  constructor
  · intro hused
    rcases mem_used_list.mp hused with ⟨i, hi, t1, h1, t2, h2, htr, hor⟩
    cases hcomb : combine_terms t1 t2 with
    | none => rw [hcomb] at htr; simp [truthy] at htr
    | some c =>
      rcases merge_shape hcnt hchar h1 h2 hcomb with ⟨u, v, ha, hb, hc⟩
      obtain ⟨-, -, -, hap1⟩ := (hchar t1).mp ⟨i, h1⟩
      obtain ⟨-, -, -, hap2⟩ := (hchar t2).mp ⟨i+1, h2⟩
      rw [ha] at hap1
      rw [hb] at hap2
      have hapc : AllPresent M (u ++ '-' :: v) := allPresent_merge hap1 hap2
      rcases hor with rfl | rfl
      · exact ⟨u, '0', v, ha, Or.inl rfl, hapc⟩
      · exact ⟨u, '1', v, hb, Or.inr rfl, hapc⟩
  · rintro ⟨u, x, v, rfl, hx01, hapx⟩
    obtain ⟨hlen, hsym, hdash, hap⟩ := (hchar _).mp htg
    rcases htg with ⟨i0, hmem0⟩
    have hi0 : count_ones (u ++ x :: v) = i0 := hcnt i0 _ hmem0
    rcases hx01 with rfl | rfl
    · have hchar_s : GenChar M N k (u ++ '1' :: v) := by
        refine ⟨by rw [length_replace '0' '1']; exact hlen,
          symbols_replace '1' hsym (Or.inr (Or.inl rfl)), ?_,
          allPresent_restrict hapx⟩
        rw [dashes_append_cons, if_neg (by decide)]
        rw [dashes_append_cons, if_neg (by decide)] at hdash
        omega
      rcases (hchar _).mpr hchar_s with ⟨j, hs_mem⟩
      have hj : count_ones (u ++ '1' :: v) = j := hcnt j _ hs_mem
      have hc0 : count_ones (u ++ '0' :: v) = count_ones u + count_ones v := by
        rw [count_ones_append_cons, if_neg (by decide)]
        omega
      have hc1 : count_ones (u ++ '1' :: v) =
          count_ones u + count_ones v + 1 := by
        rw [count_ones_append_cons, if_pos rfl]
      have hjle : j ≤ N := by
        have hle := count_ones_add_dashes_le (u ++ '1' :: v)
        have hlb : (u ++ '1' :: v).length = N := by
          rw [length_replace '0' '1']
          exact hlen
        omega
      have hs_mem' : (u ++ '1' :: v) ∈ G (i0 + 1) := by
        have hji : j = i0 + 1 := by omega
        rw [← hji]
        exact hs_mem
      refine mem_used_list.mpr ⟨i0, by omega, _, hmem0, _, hs_mem', ?_,
        Or.inl rfl⟩
      rw [combine_of_one_diff (show ('0' : Char) ≠ '1' by decide)]
      cases u <;> rfl
    · have hchar_s : GenChar M N k (u ++ '0' :: v) := by
        refine ⟨by rw [length_replace '1' '0']; exact hlen,
          symbols_replace '0' hsym (Or.inl rfl), ?_,
          allPresent_restrict hapx⟩
        rw [dashes_append_cons, if_neg (by decide)]
        rw [dashes_append_cons, if_neg (by decide)] at hdash
        omega
      rcases (hchar _).mpr hchar_s with ⟨j, hs_mem⟩
      have hj : count_ones (u ++ '0' :: v) = j := hcnt j _ hs_mem
      have hc0 : count_ones (u ++ '0' :: v) = count_ones u + count_ones v := by
        rw [count_ones_append_cons, if_neg (by decide)]
        omega
      have hc1 : count_ones (u ++ '1' :: v) =
          count_ones u + count_ones v + 1 := by
        rw [count_ones_append_cons, if_pos rfl]
      have hi0le : i0 ≤ N := by
        have hle := count_ones_add_dashes_le (u ++ '1' :: v)
        have hlb : (u ++ '1' :: v).length = N := hlen
        omega
      have ht_mem' : (u ++ '1' :: v) ∈ G (j + 1) := by
        have hji : i0 = j + 1 := by omega
        rw [← hji]
        exact hmem0
      refine mem_used_list.mpr ⟨j, by omega, _, hs_mem, _, ht_mem', ?_,
        Or.inr rfl⟩
      rw [combine_of_one_diff (show ('0' : Char) ≠ '1' by decide)]
      cases u <;> rfl

/-- Every output term of a run whose groups satisfy the generation invariant
is sound: well-formed, all expansions present, and not extendable. -/
lemma qm_loop_sound : ∀ (fuel : Nat) {M : Term → Prop} {N k : Nat}
    {G : GroupMap} {pis res : List Term},
    GensInv M N k G → (∀ t ∈ pis, SoundOut M N t) →
    qm_loop N fuel G pis = some res → ∀ t ∈ res, SoundOut M N t := by
  intro fuel
  induction fuel with
  | zero => intro M N k G pis res _ _ h; simp [qm_loop] at h
  | succ fuel ih =>
    intro M N k G pis res hinv hpis h
    obtain ⟨hcnt, hchar⟩ := hinv
    have hpis2 : ∀ t ∈ (pass_primes N G).foldl add_prime pis,
        SoundOut M N t := by
      intro t ht
      rcases (mem_foldl_add_prime _ _ _).mp ht with h1 | h2
      · exact hpis t h1
      · rcases mem_pass_primes.mp h2 with ⟨⟨i, hi, hmem⟩, hnu⟩
        have hex : ∃ i, t ∈ G i := ⟨i, hmem⟩
        obtain ⟨hlen, hsym, hdash, hap⟩ := (hchar t).mp hex
        refine ⟨⟨hlen, hsym⟩, hap, ?_⟩
        intro u x v hdec hx01 hapx
        exact hnu ((used_iff_extension hcnt hchar hex).mpr
          ⟨u, x, v, hdec, hx01, hapx⟩)
    simp only [qm_loop] at h
    split at h
    · have := Option.some.inj h
      subst this
      exact hpis2
    · exact ih (gensInv_step ⟨hcnt, hchar⟩) hpis2 h

/-- Two sound output terms of adjacent population counts are never
merge-combinable. -/
lemma output_no_adjacent_merge {M : Term → Prop} {N : Nat} {p q : Term}
    (hp : SoundOut M N p) (hq : SoundOut M N q)
    (hcq : count_ones q = count_ones p + 1) {c : Term}
    (hcomb : combine_terms p q = some c) : False := by
  obtain ⟨⟨hlp, hsp⟩, happ, hnep⟩ := hp
  obtain ⟨⟨hlq, hsq⟩, hapq, hneq⟩ := hq
  rcases (combine_eq_some_iff (hlp.trans hlq.symm)).mp hcomb with
    ⟨u, x, y, v, hxy, rfl, rfl, rfl⟩
  rw [count_ones_append_cons, count_ones_append_cons] at hcq
  obtain ⟨hy1, hx1⟩ := ite_one_succ rfl hcq
  subst hy1
  have hxmem : x ∈ u ++ x :: v :=
    List.mem_append.mpr (Or.inr (List.mem_cons_self x v))
  rcases hsp x hxmem with hx0 | hx1' | hxd
  · subst hx0
    exact hnep u '0' v rfl (Or.inl rfl) (allPresent_merge happ hapq)
  · exact absurd hx1' hx1
  · subst hxd
    exact hneq u '1' v rfl (Or.inr rfl) happ

/-- A sorted duplicate-free list of pairwise sound terms is a fixed point of
the whole reduction. -/
lemma run_on_sound_output {M : Term → Prop} {N : Nat} {out : List Term}
    (hsound : ∀ t ∈ out, SoundOut M N t)
    (hsorted : List.Sorted term_le out) (hnd : out.Nodup) :
    quine_mccluskey N out = some out := by
  have hvalid : ∀ t ∈ out, valid_term N t = true := fun t ht =>
    valid_term_iff.mpr (hsound t ht).1
  have hfil : out.filter (valid_term N) = out := List.filter_eq_self.mpr hvalid
  have hG2mem : ∀ i t, t ∈ init_groups N out i ↔ (t ∈ out ∧ count_ones t = i) := by
    intro i t
    simp only [init_groups, hfil, List.mem_filter, beq_iff_eq]
  have hmerged : merged_list N (init_groups N out) = [] := by
    rw [List.eq_nil_iff_forall_not_mem]
    intro c hc
    rcases mem_merged_list.mp hc with ⟨i, hi, t1, h1, t2, h2, hcomb, hne⟩
    obtain ⟨ht1, hc1⟩ := (hG2mem i t1).mp h1
    obtain ⟨ht2, hc2⟩ := (hG2mem (i+1) t2).mp h2
    exact output_no_adjacent_merge (hsound t1 ht1) (hsound t2 ht2)
      (by omega) hcomb
  have hused : used_list N (init_groups N out) = [] := by
    rw [List.eq_nil_iff_forall_not_mem]
    intro t ht
    rcases mem_used_list.mp ht with ⟨i, hi, t1, h1, t2, h2, htr, -⟩
    cases hcomb : combine_terms t1 t2 with
    | none => rw [hcomb] at htr; simp [truthy] at htr
    | some c =>
      have hcm : c ∈ merged_list N (init_groups N out) := mem_merged_list.mpr
        ⟨i, hi, t1, h1, t2, h2, hcomb, combine_some_ne_nil hcomb⟩
      rw [hmerged] at hcm
      exact List.not_mem_nil c hcm
  have hpis2 : SetEq ((pass_primes N (init_groups N out)).foldl add_prime [])
      out := by
    intro t
    rw [mem_foldl_add_prime]
    simp only [List.not_mem_nil, false_or]
    rw [mem_pass_primes]
    constructor
    · rintro ⟨⟨i, hi, hmem⟩, -⟩
      exact ((hG2mem i t).mp hmem).1
    · intro ht
      have hcle : count_ones t ≤ N := by
        have h1 := count_ones_le_length t
        have h2 : t.length = N := (hsound t ht).1.1
        omega
      refine ⟨⟨count_ones t, hcle, (hG2mem _ t).mpr ⟨ht, rfl⟩⟩, ?_⟩
      rw [hused]
      exact List.not_mem_nil t
  unfold quine_mccluskey
  have hchk : (List.range (N+1)).all
      (fun j => (next_groups_fn N (init_groups N out) j).isEmpty) = true := by
    rw [List.all_eq_true]
    intro j _
    show (next_groups_fn N (init_groups N out) j).isEmpty = true
    unfold next_groups_fn
    rw [hmerged]
    rfl
  have hloop : qm_loop N (N + 1) (init_groups N out) [] =
      some ((pass_primes N (init_groups N out)).foldl add_prime []) := by
    simp only [qm_loop]
    rw [if_pos hchk]
  rw [hloop]
  simp only [Option.map_some']
  congr 1
  have hnd2 : ((pass_primes N (init_groups N out)).foldl add_prime []).Nodup :=
    nodup_foldl_add_prime _ List.nodup_nil
  have hperm : ((pass_primes N (init_groups N out)).foldl add_prime []).Perm
      out := (List.perm_ext_iff_of_nodup hnd2 hnd).mpr hpis2
  exact List.eq_of_perm_of_sorted
    ((List.perm_insertionSort term_le _).trans hperm)
    (List.sorted_insertionSort term_le _) hsorted

/-- C6 (counterexample): with don't-care symbols in the input minterm list
(which the code accepts), re-running the reduction on its own output can
shrink the set further: for width 3 and minterms 10-, 11-, 1-1 the first
run returns [1--, 1-1] but the second run returns only [1--]. -/
theorem c6_counterexample :
    quine_mccluskey 3 [['1','0','-'], ['1','1','-'], ['1','-','1']] =
      some [['1','-','-'], ['1','-','1']] ∧
    quine_mccluskey 3 [['1','-','-'], ['1','-','1']] = some [['1','-','-']] ∧
    ([['1','-','-']] : List Term) ≠ [['1','-','-'], ['1','-','1']] := by decide

/-- C6 (amended): for inputs of pure minterms (symbols 0 and 1 only, as the
spec's generation-0 contract prescribes), running `quine_mccluskey` a second
time on its own output returns exactly the same term list: the output is a
fixed point and the set does not shrink. -/
theorem c6_pure_idempotence (N : Nat) (l : List Term)
    (hpure : ∀ t ∈ l, pure_term t) :
    ∃ out, quine_mccluskey N l = some out ∧ quine_mccluskey N out = some out := by
  cases hq : qm_loop N (N + 1) (init_groups N l) [] with
  | none =>
    have hs := quine_mccluskey_isSome N l
    unfold quine_mccluskey at hs
    rw [hq] at hs
    simp at hs
  | some res =>
    have hsound : ∀ t ∈ res,
        SoundOut (fun m => m ∈ l ∧ valid_term N m = true) N t :=
      qm_loop_sound (N+1) (gensInv_init hpure)
        (by intro t ht; simp at ht) hq
    refine ⟨List.insertionSort term_le res, ?_, ?_⟩
    · unfold quine_mccluskey
      rw [hq]
      rfl
    · have hnd : res.Nodup := qm_loop_nodup (N+1) List.nodup_nil hq
      have hnd2 : (List.insertionSort term_le res).Nodup :=
        ((List.perm_insertionSort term_le res).nodup_iff).mpr hnd
      have hsound2 : ∀ t ∈ List.insertionSort term_le res,
          SoundOut (fun m => m ∈ l ∧ valid_term N m = true) N t := fun t ht =>
        hsound t ((List.perm_insertionSort term_le res).mem_iff.mp ht)
      exact run_on_sound_output hsound2
        (List.sorted_insertionSort term_le res) hnd2

theorem c6_pure_idempotence_witness :
    (∀ t ∈ [['0','0'], ['0','1']], pure_term t) ∧
    ∃ out, quine_mccluskey 2 [['0','0'], ['0','1']] = some out ∧
      quine_mccluskey 2 out = some out :=
  ⟨by decide, c6_pure_idempotence 2 [['0','0'], ['0','1']] (by decide)⟩

/-! ### PLA text format (claim C8): `write_pla_output` and `parse_pla_data` -/

/-- Decimal digit character. -/
def digitChar : Nat → Char
  | 0 => '0'
  | 1 => '1'
  | 2 => '2'
  | 3 => '3'
  | 4 => '4'
  | 5 => '5'
  | 6 => '6'
  | 7 => '7'
  | 8 => '8'
  | _ => '9'

/-- Value of a decimal digit character. -/
def digitVal (c : Char) : Option Nat :=
  if c = '0' then some 0 else if c = '1' then some 1 else if c = '2' then some 2
  else if c = '3' then some 3 else if c = '4' then some 4
  else if c = '5' then some 5 else if c = '6' then some 6
  else if c = '7' then some 7 else if c = '8' then some 8
  else if c = '9' then some 9 else none

def natDigitsAux : Nat → Nat → List Char
  | 0, _ => []
  | fuel+1, n =>
    if n = 0 then [] else natDigitsAux fuel (n / 10) ++ [digitChar (n % 10)]

/-- Decimal rendering of a natural number, as Python string formatting
produces it. -/
def natToString (n : Nat) : List Char :=
  if n = 0 then ['0'] else natDigitsAux (n + 1) n

/-- Python `int(...)` on a token: evaluates plain digit strings (the only
form the writer emits); anything else raises, modelled as `none`. -/
def parseNat (s : List Char) : Option Nat :=
  if s = [] then none
  else s.foldlM (fun acc c => (digitVal c).map (fun d => acc * 10 + d)) 0

def split_chars (sep : Char) : List Char → List (List Char)
  | [] => [[]]
  | c :: rest =>
    if c = sep then [] :: split_chars sep rest
    else
      match split_chars sep rest with
      | [] => [[c]]
      | h :: t => (c :: h) :: t

def dropTrailingEmpty : List (List Char) → List (List Char)
  | [] => []
  | [x] => if x = [] then [] else [x]
  | x :: rest => x :: dropTrailingEmpty rest

/-- Python `str.splitlines()` for newline-separated content (the writer only
ever emits `\n`). -/
def pysplitlines (s : List Char) : List (List Char) :=
  dropTrailingEmpty (split_chars '\n' s)

def is_space (c : Char) : Bool := c = ' ' || c = '\t' || c = '\n' || c = '\r'

def pysplitAux : List Char → List Char → List (List Char)
  | cur, [] => if cur = [] then [] else [cur.reverse]
  | cur, c :: rest =>
    if is_space c then
      if cur = [] then pysplitAux [] rest
      else cur.reverse :: pysplitAux [] rest
    else pysplitAux (c :: cur) rest

/-- Python `str.split()` with no argument: split on runs of whitespace,
dropping empty tokens. -/
def pysplit (s : List Char) : List (List Char) := pysplitAux [] s

def startswith (pre s : List Char) : Bool := pre.isPrefixOf s

/-- One line of `parse_pla_data`'s loop, threading the state
`(minterms, num_inputs, num_outputs)`.  A Python exception (IndexError on a
short header, ValueError from `int`) is `none`. -/
def parse_line (st : List Term × Nat × Nat) (line : List Char) :
    Option (List Term × Nat × Nat) :=
  if startswith ['.'] line then
    if startswith ['.', 'i'] line then
      match pysplit line with
      | _ :: tok :: _ => (parseNat tok).map (fun n => (st.1, n, st.2.2))
      | _ => none
    else if startswith ['.', 'o'] line then
      match pysplit line with
      | _ :: tok :: _ => (parseNat tok).map (fun n => (st.1, st.2.1, n))
      | _ => none
    else some st
  else
    match pysplit line with
    | [term, output] =>
      if output = ['1'] then some (st.1 ++ [term], st.2.1, st.2.2)
      else some st
    | _ => some st

/-- `parse_pla_data`, from `qm.py`, over the raw text. -/
def parse_pla_data (pla_data : List Char) : Option (List Term × Nat × Nat) :=
  (pysplitlines pla_data).foldlM parse_line ([], 0, 0)

/-- The minterm lines plus the `.e` trailer of the written file. -/
def term_lines : List Term → List Char
  | [] => ['.', 'e'] ++ '\n' :: []
  | t :: rest => (t ++ [' ', '1']) ++ '\n' :: term_lines rest

/-- The text `write_pla_output` writes: `.i N`, `.o M`, one `<term> 1` line
per term, and the `.e` trailer, each line ended by a newline. -/
def write_pla_data (minimized_terms : List Term) (num_inputs num_outputs : Nat) :
    List Char :=
  (['.', 'i', ' '] ++ natToString num_inputs) ++ '\n' ::
    ((['.', 'o', ' '] ++ natToString num_outputs) ++ '\n' ::
      term_lines minimized_terms)

/-! #### Digit facts -/

lemma digitVal_digitChar (d : Nat) (hd : d < 10) :
    digitVal (digitChar d) = some d := by
  interval_cases d <;> rfl

lemma mem_natDigitsAux : ∀ (fuel n : Nat) (c : Char), c ∈ natDigitsAux fuel n →
    ∃ d, d < 10 ∧ c = digitChar d := by
  intro fuel
  induction fuel with
  | zero => intro n c hc; simp [natDigitsAux] at hc
  | succ fuel ih =>
    intro n c hc
    rw [natDigitsAux] at hc
    by_cases h0 : n = 0
    · rw [if_pos h0] at hc
      simp at hc
    · rw [if_neg h0] at hc
      rcases List.mem_append.mp hc with h | h
      · exact ih (n / 10) c h
      · rcases List.mem_singleton.mp h with rfl
        exact ⟨n % 10, Nat.mod_lt n (by omega), rfl⟩

lemma mem_natToString {n : Nat} {c : Char} (hc : c ∈ natToString n) :
    ∃ d, d < 10 ∧ c = digitChar d := by
  unfold natToString at hc
  by_cases h0 : n = 0
  · rw [if_pos h0] at hc
    rcases List.mem_singleton.mp hc with rfl
    exact ⟨0, by omega, rfl⟩
  · rw [if_neg h0] at hc
    exact mem_natDigitsAux (n + 1) n c hc

lemma natToString_no_space (n : Nat) :
    ∀ c ∈ natToString n, is_space c = false := by
  intro c hc
  rcases mem_natToString hc with ⟨d, hd, rfl⟩
  interval_cases d <;> rfl

lemma natToString_no_nl (n : Nat) : ('\n' : Char) ∉ natToString n := by
  intro hc
  rcases mem_natToString hc with ⟨d, hd, hdc⟩
  interval_cases d <;> exact absurd hdc (by decide)

lemma natToString_ne_nil (n : Nat) : natToString n ≠ [] := by
  unfold natToString
  by_cases h0 : n = 0
  · rw [if_pos h0]
    simp
  · rw [if_neg h0, natDigitsAux, if_neg h0]
    simp

lemma foldlM_digitlist : ∀ (l : List Char),
    (∀ c ∈ l, ∃ d, d < 10 ∧ c = digitChar d) → ∀ (acc : Nat),
    List.foldlM (fun acc c => (digitVal c).map (fun d => acc * 10 + d)) acc l =
      some (l.foldl (fun acc c => acc * 10 + ((digitVal c).getD 0)) acc) := by
  intro l
  induction l with
  | nil => intro _ acc; rfl
  | cons c l ih =>
    intro hl acc
    rcases hl c (List.mem_cons_self c l) with ⟨d, hd, rfl⟩
    have hdv : digitVal (digitChar d) = some d := digitVal_digitChar d hd
    have hl2 : ∀ x ∈ l, ∃ e, e < 10 ∧ x = digitChar e := fun x hx =>
      hl x (List.mem_cons_of_mem _ hx)
    rw [List.foldlM_cons, List.foldl_cons, hdv]
    show List.foldlM _ (acc * 10 + d) l = _
    rw [ih hl2 (acc * 10 + d)]
    rfl

lemma foldl_digits_val : ∀ (fuel n : Nat), n ≤ fuel → ∀ acc,
    (natDigitsAux fuel n).foldl
        (fun acc c => acc * 10 + ((digitVal c).getD 0)) acc =
      acc * 10 ^ (natDigitsAux fuel n).length + n := by
  intro fuel
  induction fuel with
  | zero =>
    intro n hn acc
    interval_cases n
    simp [natDigitsAux]
  | succ fuel ih =>
    intro n hn acc
    by_cases h0 : n = 0
    · subst h0
      simp [natDigitsAux]
    · rw [show natDigitsAux (fuel+1) n =
          natDigitsAux fuel (n / 10) ++ [digitChar (n % 10)] from by
        rw [natDigitsAux, if_neg h0]]
      have hdiv : n / 10 ≤ fuel := by
        have := Nat.div_lt_self (by omega : 0 < n) (by omega : 1 < 10)
        omega
      rw [List.foldl_append, ih (n / 10) hdiv acc, List.foldl_cons,
        List.foldl_nil, digitVal_digitChar (n % 10) (Nat.mod_lt n (by omega)),
        Option.getD_some, List.length_append, List.length_singleton, pow_succ,
        ← mul_assoc]
      have hnm := Nat.div_add_mod n 10
      omega

lemma parseNat_natToString (n : Nat) : parseNat (natToString n) = some n := by
  by_cases h0 : n = 0
  · subst h0
    decide
  · have hne : natToString n ≠ [] := natToString_ne_nil n
    unfold parseNat
    rw [if_neg hne]
    rw [foldlM_digitlist (natToString n) (fun c hc => mem_natToString hc) 0]
    congr 1
    show (natToString n).foldl _ 0 = n
    unfold natToString
    rw [if_neg h0, foldl_digits_val (n + 1) n (by omega) 0]
    simp

/-! #### Splitting facts -/

lemma split_chars_ne_nil (sep : Char) : ∀ s, split_chars sep s ≠ [] := by
  intro s
  induction s with
  | nil => simp [split_chars]
  | cons c rest ih =>
    rw [split_chars]
    by_cases h : c = sep
    · rw [if_pos h]
      simp
    · rw [if_neg h]
      cases hs : split_chars sep rest with
      | nil => simp
      | cons a t => simp

lemma split_chars_append_cons (sep : Char) : ∀ (a s : List Char), sep ∉ a →
    split_chars sep (a ++ sep :: s) = a :: split_chars sep s := by
  intro a
  induction a with
  | nil =>
    intro s _
    show split_chars sep (sep :: s) = [] :: split_chars sep s
    rw [split_chars, if_pos rfl]
  | cons c a ih =>
    intro s hna
    have hc : c ≠ sep := fun h => hna (h ▸ List.mem_cons_self c a)
    have hna' : sep ∉ a := fun h => hna (List.mem_cons_of_mem c h)
    show split_chars sep (c :: (a ++ sep :: s)) = (c :: a) :: split_chars sep s
    rw [split_chars, if_neg (fun h => hc h), ih s hna']

lemma pysplitlines_append (a s : List Char) (hna : ('\n' : Char) ∉ a) :
    pysplitlines (a ++ '\n' :: s) = a :: pysplitlines s := by
  unfold pysplitlines
  rw [split_chars_append_cons '\n' a s hna]
  cases hps : split_chars '\n' s with
  | nil => exact absurd hps (split_chars_ne_nil '\n' s)
  | cons h t => rfl

lemma pysplitAux_no_space : ∀ (w : List Char), (∀ c ∈ w, is_space c = false) →
    ∀ (cur s : List Char), pysplitAux cur (w ++ s) =
      pysplitAux (w.reverse ++ cur) s := by
  intro w
  induction w with
  | nil => intro _ cur s; simp
  | cons c w ih =>
    intro hw cur s
    have hc : is_space c = false := hw c (List.mem_cons_self c w)
    have hw' : ∀ x ∈ w, is_space x = false := fun x hx =>
      hw x (List.mem_cons_of_mem c hx)
    show pysplitAux cur (c :: (w ++ s)) = _
    rw [pysplitAux, if_neg (by rw [hc]; exact Bool.false_ne_true), ih hw' (c :: cur) s]
    simp [List.append_assoc]

lemma pysplit_word_space (w s : List Char) (hw : ∀ c ∈ w, is_space c = false)
    (hne : w ≠ []) :
    pysplitAux [] (w ++ ' ' :: s) = w :: pysplitAux [] s := by
  rw [pysplitAux_no_space w hw [] (' ' :: s), List.append_nil, pysplitAux]
  rw [if_pos (show is_space ' ' = true from rfl)]
  rw [if_neg (by simpa using hne)]
  rw [List.reverse_reverse]

lemma pysplit_last_word (w : List Char) (hw : ∀ c ∈ w, is_space c = false)
    (hne : w ≠ []) :
    pysplitAux [] w = [w] := by
  rw [show pysplitAux ([] : List Char) w = pysplitAux [] (w ++ []) from by
    rw [List.append_nil]]
  rw [pysplitAux_no_space w hw [] [], List.append_nil, pysplitAux]
  rw [if_neg (by simpa using hne), List.reverse_reverse]

/-! #### Line-level behaviour of the parser -/

lemma parse_line_i (st : List Term × Nat × Nat) (n : Nat) :
    parse_line st (['.', 'i', ' '] ++ natToString n) = some (st.1, n, st.2.2) := by
  have hsw1 : startswith ['.'] (['.', 'i', ' '] ++ natToString n) = true := rfl
  have hsw2 : startswith ['.', 'i'] (['.', 'i', ' '] ++ natToString n) = true := rfl
  have hsp : pysplit (['.', 'i', ' '] ++ natToString n) =
      [['.', 'i'], natToString n] := by
    show pysplitAux [] (['.', 'i'] ++ ' ' :: natToString n) = _
    rw [pysplit_word_space ['.', 'i'] (natToString n) (by decide) (by decide),
      pysplit_last_word (natToString n) (natToString_no_space n)
        (natToString_ne_nil n)]
  unfold parse_line
  rw [if_pos hsw1, if_pos hsw2, hsp]
  show (parseNat (natToString n)).map (fun n => (st.1, n, st.2.2)) = _
  rw [parseNat_natToString n]
  rfl

lemma parse_line_o (st : List Term × Nat × Nat) (n : Nat) :
    parse_line st (['.', 'o', ' '] ++ natToString n) = some (st.1, st.2.1, n) := by
  have hsw1 : startswith ['.'] (['.', 'o', ' '] ++ natToString n) = true := rfl
  have hsw2 : startswith ['.', 'i'] (['.', 'o', ' '] ++ natToString n) = false := rfl
  have hsw3 : startswith ['.', 'o'] (['.', 'o', ' '] ++ natToString n) = true := rfl
  have hsp : pysplit (['.', 'o', ' '] ++ natToString n) =
      [['.', 'o'], natToString n] := by
    show pysplitAux [] (['.', 'o'] ++ ' ' :: natToString n) = _
    rw [pysplit_word_space ['.', 'o'] (natToString n) (by decide) (by decide),
      pysplit_last_word (natToString n) (natToString_no_space n)
        (natToString_ne_nil n)]
  unfold parse_line
  rw [if_pos hsw1, if_neg (by rw [hsw2]; exact Bool.false_ne_true), if_pos hsw3, hsp]
  show (parseNat (natToString n)).map (fun n => (st.1, st.2.1, n)) = _
  rw [parseNat_natToString n]
  rfl

lemma parse_line_term (st : List Term × Nat × Nat) (t : Term) (ht : t ≠ [])
    (hchars : ∀ c ∈ t, c = '0' ∨ c = '1' ∨ c = '-') :
    parse_line st (t ++ [' ', '1']) = some (st.1 ++ [t], st.2.1, st.2.2) := by
  have hsw : startswith ['.'] (t ++ [' ', '1']) = false := by
    cases t with
    | nil => exact absurd rfl ht
    | cons c t' =>
      rcases hchars c (List.mem_cons_self c t') with rfl | rfl | rfl <;> rfl
  have hnos : ∀ c ∈ t, is_space c = false := by
    intro c hc
    rcases hchars c hc with rfl | rfl | rfl <;> rfl
  have hsp : pysplit (t ++ [' ', '1']) = [t, ['1']] := by
    show pysplitAux [] (t ++ ' ' :: ['1']) = _
    rw [pysplit_word_space t ['1'] hnos ht,
      pysplit_last_word ['1'] (by decide) (by decide)]
  unfold parse_line
  rw [if_neg (by rw [hsw]; exact Bool.false_ne_true), hsp]
  rfl

lemma pysplitlines_term_lines : ∀ (terms : List Term),
    (∀ t ∈ terms, ('\n' : Char) ∉ t) →
    pysplitlines (term_lines terms) =
      terms.map (fun t => t ++ [' ', '1']) ++ [['.', 'e']] := by
  intro terms
  induction terms with
  | nil =>
    intro _
    show pysplitlines (['.', 'e'] ++ '\n' :: []) = [['.', 'e']]
    rw [pysplitlines_append ['.', 'e'] [] (by decide)]
    rfl
  | cons t rest ih =>
    intro h
    have hnl : ('\n' : Char) ∉ t ++ [' ', '1'] := by
      intro hmem
      rcases List.mem_append.mp hmem with hm | hm
      · exact h t (List.mem_cons_self t rest) hm
      · exact absurd hm (by decide)
    show pysplitlines ((t ++ [' ', '1']) ++ '\n' :: term_lines rest) = _
    rw [pysplitlines_append _ _ hnl,
      ih (fun x hx => h x (List.mem_cons_of_mem _ hx))]
    rfl

lemma foldlM_term_lines : ∀ (terms acc : List Term) (ni no : Nat),
    (∀ t ∈ terms, t ≠ [] ∧ ∀ c ∈ t, c = '0' ∨ c = '1' ∨ c = '-') →
    List.foldlM parse_line (acc, ni, no)
        (terms.map (fun t => t ++ [' ', '1']) ++ [['.', 'e']]) =
      some (acc ++ terms, ni, no) := by
  intro terms
  induction terms with
  | nil =>
    intro acc ni no _
    rw [List.append_nil]
    rfl
  | cons t rest ih =>
    intro acc ni no h
    obtain ⟨hne, hchars⟩ := h t (List.mem_cons_self t rest)
    show List.foldlM parse_line (acc, ni, no)
        ((t ++ [' ', '1']) :: (rest.map (fun t => t ++ [' ', '1']) ++
          [['.', 'e']])) = _
    rw [List.foldlM_cons, parse_line_term (acc, ni, no) t hne hchars]
    show List.foldlM parse_line (acc ++ [t], ni, no)
        (rest.map (fun t => t ++ [' ', '1']) ++ [['.', 'e']]) = _
    rw [ih (acc ++ [t]) ni no (fun x hx => h x (List.mem_cons_of_mem _ hx))]
    rw [List.append_assoc]
    rfl

/-! ### Claim C8 -/

/-- C8 (counterexample): for width 0, the empty string is a well-formed
term, but its written line " 1" is skipped on re-parsing (its whitespace
split has only one token), so the round trip loses it. -/
theorem c8_counterexample :
    parse_pla_data (write_pla_data [[]] 0 1) = some (([] : List Term), 0, 1) ∧
    (∀ t ∈ [([] : Term)], valid_term 0 t = true) ∧
    ([] : List Term) ≠ [[]] := by decide

/-- C8 (amended): for a declared width of at least 1, writing any list of
well-formed terms in the tabular PLA format and re-parsing the text with
`parse_pla_data` recovers exactly the same term list (hence the same set),
together with the declared input and output counts. -/
theorem c8_write_parse_roundtrip (N M : Nat) (terms : List Term)
    (hN : 1 ≤ N) (hv : ∀ t ∈ terms, valid_term N t = true) :
    parse_pla_data (write_pla_data terms N M) = some (terms, N, M) := by
  have hterm : ∀ t ∈ terms, t ≠ [] ∧ ∀ c ∈ t, c = '0' ∨ c = '1' ∨ c = '-' := by
    intro t ht
    obtain ⟨hlen, hsym⟩ := valid_term_iff.mp (hv t ht)
    refine ⟨?_, hsym⟩
    intro h
    rw [h] at hlen
    simp at hlen
    omega
  have hnl : ∀ t ∈ terms, ('\n' : Char) ∉ t := by
    intro t ht hc
    rcases (hterm t ht).2 '\n' hc with h | h | h <;> exact absurd h (by decide)
  have hnl1 : ('\n' : Char) ∉ ['.', 'i', ' '] ++ natToString N := by
    intro h
    rcases List.mem_append.mp h with h | h
    · exact absurd h (by decide)
    · exact natToString_no_nl N h
  have hnl2 : ('\n' : Char) ∉ ['.', 'o', ' '] ++ natToString M := by
    intro h
    rcases List.mem_append.mp h with h | h
    · exact absurd h (by decide)
    · exact natToString_no_nl M h
  unfold parse_pla_data write_pla_data
  rw [pysplitlines_append _ _ hnl1, pysplitlines_append _ _ hnl2,
    pysplitlines_term_lines terms hnl]
  rw [List.foldlM_cons, parse_line_i ([], 0, 0) N]
  show List.foldlM parse_line ([], N, 0)
    ((['.', 'o', ' '] ++ natToString M) ::
      (terms.map (fun t => t ++ [' ', '1']) ++ [['.', 'e']])) = _
  rw [List.foldlM_cons, parse_line_o ([], N, 0) M]
  show List.foldlM parse_line ([], N, M)
    (terms.map (fun t => t ++ [' ', '1']) ++ [['.', 'e']]) = _
  rw [foldlM_term_lines terms [] N M hterm]
  rfl

theorem c8_write_parse_roundtrip_witness :
    parse_pla_data (write_pla_data [['0', '1']] 2 1) =
      some ([['0', '1']], 2, 1) :=
  c8_write_parse_roundtrip 2 1 [['0', '1']] (by decide) (by decide)

end QM
